import Mathlib

/-!
Verification of the splay-tree based containers in `src/main.rs`:
the generic zipper / splay machinery, the `SplayTree` ordered set over
plain nodes, and the `BitRange` reversible boolean sequence over
size-annotated, lazily-reversible nodes.

Loops in the Rust source are modelled as fuel-indexed structural
recursions; in each case the fuel supplied by the wrapper strictly
bounds the number of iterations the Rust loop can perform (the node
count of the tree, or the length of the zipper path), so the
out-of-fuel branch is unreachable and the embedding computes exactly
what the loop computes.
-/

namespace RustSplay

/-- One layer of a binary tree: `TreeF` from the source. -/
inductive TreeF (A B : Type) where
  | Empty : TreeF A B
  | Branch (val : A) (left right : B) : TreeF A B
deriving DecidableEq

/-- Which side of the parent the focus came from. -/
inductive Direction where
  | Left
  | Right
deriving DecidableEq

/-- One step of a zipper path: direction, parent value, detached sibling. -/
structure TreeZipperStep (A B : Type) where
  direction : Direction
  parent_val : A
  sibling : B
deriving DecidableEq

/-- A zipper: path of steps (head = deepest step, matching the top of the
Rust `Vec` used as a stack) plus the focused subtree. -/
structure TreeZipper (A B : Type) where
  path : List (TreeZipperStep A B)
  here : B
deriving DecidableEq

section GenericZipper

variable {A B : Type}

/-- Rebuild one level: the body of the `zip_tree` / `parent_zipper` loops. -/
def step_combine (comb : TreeF A B → B) (s : TreeZipperStep A B) (node : B) : B :=
  match s.direction with
  | .Left => comb (.Branch s.parent_val node s.sibling)
  | .Right => comb (.Branch s.parent_val s.sibling node)

/-- The loop of `zip_tree`, popping steps from the stack. -/
def zip_go (comb : TreeF A B → B) : List (TreeZipperStep A B) → B → B
  | [], node => node
  | s :: rest, node => zip_go comb rest (step_combine comb s node)

/-- `zip_tree`: reassemble the full tree from a zipper. -/
def zip_tree (comb : TreeF A B → B) (z : TreeZipper A B) : B :=
  zip_go comb z.path z.here

/-- `root_zipper`: empty path, focus on the whole tree. -/
def root_zipper (node : B) : TreeZipper A B :=
  ⟨[], node⟩

/-- `parent_zipper`: move the focus one level up (no-op on an empty path). -/
def parent_zipper (comb : TreeF A B → B) (z : TreeZipper A B) : TreeZipper A B :=
  match z.path with
  | [] => z
  | s :: rest => ⟨rest, step_combine comb s z.here⟩

/-- `left_zipper`: descend into the (separated) left child. -/
def left_zipper (sep : B → TreeF A B) (comb : TreeF A B → B)
    (z : TreeZipper A B) : TreeZipper A B :=
  match sep z.here with
  | .Empty => ⟨z.path, comb .Empty⟩
  | .Branch val left right => ⟨⟨.Left, val, right⟩ :: z.path, left⟩

/-- `right_zipper`: descend into the (separated) right child. -/
def right_zipper (sep : B → TreeF A B) (comb : TreeF A B → B)
    (z : TreeZipper A B) : TreeZipper A B :=
  match sep z.here with
  | .Empty => ⟨z.path, comb .Empty⟩
  | .Branch val left right => ⟨⟨.Right, val, left⟩ :: z.path, right⟩

/-- `rotate_zipper`: one rotation pulling the focus above its parent. -/
def rotate_zipper (sep : B → TreeF A B) (comb : TreeF A B → B)
    (z : TreeZipper A B) : TreeZipper A B :=
  match sep z.here with
  | .Empty => ⟨z.path, comb .Empty⟩
  | .Branch val left right =>
    match z.path with
    | [] => ⟨[], comb (.Branch val left right)⟩
    | ⟨.Left, parent_val, sibling⟩ :: rest =>
      ⟨rest, comb (.Branch val left (comb (.Branch parent_val right sibling)))⟩
    | ⟨.Right, parent_val, sibling⟩ :: rest =>
      ⟨rest, comb (.Branch val (comb (.Branch parent_val sibling left)) right)⟩

/-- `splay_step`: one zig / zig-zig / zig-zag step, consuming one or two
path steps. -/
def splay_step (sep : B → TreeF A B) (comb : TreeF A B → B)
    (z : TreeZipper A B) : TreeZipper A B :=
  match sep z.here with
  | .Empty => ⟨z.path, comb .Empty⟩
  | .Branch val left right =>
    match z.path with
    | [] => ⟨[], comb (.Branch val left right)⟩
    | ⟨.Left, parent_val, sibling⟩ :: [] =>
      ⟨[], comb (.Branch val left (comb (.Branch parent_val right sibling)))⟩
    | ⟨.Right, parent_val, sibling⟩ :: [] =>
      ⟨[], comb (.Branch val (comb (.Branch parent_val sibling left)) right)⟩
    | ⟨.Left, parent_val, sibling⟩ :: ⟨.Left, grandparent_val, uncle⟩ :: rest =>
      ⟨rest, comb (.Branch val left
        (comb (.Branch parent_val right (comb (.Branch grandparent_val sibling uncle)))))⟩
    | ⟨.Left, parent_val, sibling⟩ :: ⟨.Right, grandparent_val, uncle⟩ :: rest =>
      ⟨rest, comb (.Branch val (comb (.Branch grandparent_val uncle left))
        (comb (.Branch parent_val right sibling)))⟩
    | ⟨.Right, parent_val, sibling⟩ :: ⟨.Left, grandparent_val, uncle⟩ :: rest =>
      ⟨rest, comb (.Branch val (comb (.Branch parent_val sibling left))
        (comb (.Branch grandparent_val right uncle)))⟩
    | ⟨.Right, parent_val, sibling⟩ :: ⟨.Right, grandparent_val, uncle⟩ :: rest =>
      ⟨rest, comb (.Branch val
        (comb (.Branch parent_val (comb (.Branch grandparent_val uncle sibling)) left))
        right)⟩

/-- The `while` loop of `splay`. Each iteration with a `Branch` focus pops
at least one path step, so fuel equal to the path length suffices. -/
def splay_go (sep : B → TreeF A B) (comb : TreeF A B → B) :
    Nat → TreeZipper A B → TreeZipper A B
  | 0, z => z
  | fuel + 1, z =>
    match z.path with
    | [] => z
    | _ :: _ => splay_go sep comb fuel (splay_step sep comb z)

/-- `splay`: bring the focused node to the root. If the focus is `Empty`
(search fell off the tree), first step to the parent. -/
def splay (sep : B → TreeF A B) (comb : TreeF A B → B) (isb : B → Bool)
    (z : TreeZipper A B) : TreeZipper A B :=
  if z.path.isEmpty then z
  else
    let z1 := if isb z.here then z else parent_zipper comb z
    splay_go sep comb z1.path.length z1

/-- In-order contents contributed by a path strictly before the focus. -/
def pathBefore (toL : B → List A) : List (TreeZipperStep A B) → List A
  | [] => []
  | ⟨.Left, _, _⟩ :: rest => pathBefore toL rest
  | ⟨.Right, p, sib⟩ :: rest => pathBefore toL rest ++ toL sib ++ [p]

/-- In-order contents contributed by a path strictly after the focus. -/
def pathAfter (toL : B → List A) : List (TreeZipperStep A B) → List A
  | [] => []
  | ⟨.Left, p, sib⟩ :: rest => (p :: toL sib) ++ pathAfter toL rest
  | ⟨.Right, _, _⟩ :: rest => pathAfter toL rest

end GenericZipper

/-! ## The plain node type and the ordered set -/

/-- `TreeNode<A>`: a plain recursive binary tree. -/
inductive TreeNode (A : Type) where
  | Empty : TreeNode A
  | Branch (val : A) (left right : TreeNode A) : TreeNode A
deriving DecidableEq

/-- `combine` for `TreeNode`: wrap a shape into a node. -/
def TreeNode.combine {A : Type} : TreeF A (TreeNode A) → TreeNode A
  | .Empty => .Empty
  | .Branch val left right => .Branch val left right

/-- `separate` for `TreeNode`: unwrap a node into a shape. -/
def TreeNode.separate {A : Type} : TreeNode A → TreeF A (TreeNode A)
  | .Empty => .Empty
  | .Branch val left right => .Branch val left right

/-- `is_branch` for `TreeNode`. -/
def TreeNode.is_branch {A : Type} : TreeNode A → Bool
  | .Empty => false
  | .Branch _ _ _ => true

/-- In-order traversal of a plain node. -/
def inorder {A : Type} : TreeNode A → List A
  | .Empty => []
  | .Branch val left right => inorder left ++ val :: inorder right

/-- The loop of `find`: descend by ordered comparison, recording the path. -/
def find_go {A : Type} [LinearOrder A] (v : A) :
    List (TreeZipperStep A (TreeNode A)) → TreeNode A → TreeZipper A (TreeNode A)
  | path, .Empty => ⟨path, .Empty⟩
  | path, .Branch val left right =>
    if v < val then find_go v (⟨.Left, val, right⟩ :: path) left
    else if val < v then find_go v (⟨.Right, val, left⟩ :: path) right
    else ⟨path, .Branch val left right⟩

/-- `find`: descend to the key `v`, or to the `Empty` where it would go. -/
def find {A : Type} [LinearOrder A] (root : TreeNode A) (v : A) :
    TreeZipper A (TreeNode A) :=
  find_go v [] root

/-- `splay` specialised to plain nodes. -/
def psplay {A : Type} (z : TreeZipper A (TreeNode A)) : TreeZipper A (TreeNode A) :=
  splay TreeNode.separate TreeNode.combine TreeNode.is_branch z

/-- `zip_tree` specialised to plain nodes. -/
def pzip {A : Type} (z : TreeZipper A (TreeNode A)) : TreeNode A :=
  zip_tree TreeNode.combine z

/-- The ordered-set container `SplayTree`. -/
structure SplayTree (A : Type) where
  root : TreeNode A
deriving DecidableEq

/-- `SplayTree::new`. -/
def SplayTree.new {A : Type} : SplayTree A :=
  ⟨.Empty⟩

/-- `SplayTree::insert`: find the key, fill the `Empty` focus if absent,
then splay and zip back. -/
def SplayTree.insert {A : Type} [LinearOrder A] (t : SplayTree A) (v : A) :
    SplayTree A :=
  let ins_loc := find t.root v
  let here :=
    match ins_loc.here with
    | .Empty => TreeNode.Branch v .Empty .Empty
    | n => n
  ⟨pzip (psplay ⟨ins_loc.path, here⟩)⟩

/-- `SplayTree::contains`: result plus the restructured container. -/
def SplayTree.contains {A : Type} [LinearOrder A] (t : SplayTree A) (v : A) :
    Bool × SplayTree A :=
  let find_loc := find t.root v
  let result :=
    match find_loc.here with
    | .Empty => false
    | .Branch _ _ _ => true
  (result, ⟨pzip (psplay find_loc)⟩)

/-- `SplayTree::splay_to_root`. -/
def SplayTree.splay_to_root {A : Type} [LinearOrder A] (t : SplayTree A) (v : A) :
    SplayTree A :=
  ⟨pzip (psplay (find t.root v))⟩

/-- Fold a list of values into an ordered set by repeated insertion. -/
def insertList {A : Type} [LinearOrder A] (ops : List A) : SplayTree A :=
  ops.foldl (fun t v => t.insert v) SplayTree.new

/-! ## The annotated bit node and the reversible sequence -/

/-- `BitRangeNode`: boolean payload, subtree size, lazy `reversed` flag. -/
inductive BitRangeNode where
  | Empty : BitRangeNode
  | Branch (here : Bool) (size : Int) (reversed : Bool)
      (left right : BitRangeNode) : BitRangeNode
deriving DecidableEq

/-- `get_size`: the stored size annotation (0 for `Empty`). -/
def get_size : BitRangeNode → Int
  | .Empty => 0
  | .Branch _ s _ _ _ => s

/-- `Reversible::reversed`: toggle the lazy flag at the root. -/
def Reversible.reversed : BitRangeNode → BitRangeNode
  | .Empty => .Empty
  | .Branch here size reversed left right => .Branch here size (!reversed) left right

/-- `combine` for `BitRangeNode`: recompute the size, clear the flag. -/
def BitRangeNode.combine : TreeF Bool BitRangeNode → BitRangeNode
  | .Empty => .Empty
  | .Branch val left right =>
    .Branch val (get_size left + get_size right + 1) false left right

/-- `separate` for `BitRangeNode`: push a pending reversal one level down. -/
def BitRangeNode.separate : BitRangeNode → TreeF Bool BitRangeNode
  | .Empty => .Empty
  | .Branch here _ reversed left right =>
    if reversed then
      .Branch here (Reversible.reversed right) (Reversible.reversed left)
    else
      .Branch here left right

/-- `is_branch` for `BitRangeNode`. -/
def BitRangeNode.is_branch : BitRangeNode → Bool
  | .Empty => false
  | .Branch _ _ _ _ _ => true

/-- The number of `Branch` nodes in the stored structure. -/
def numNodes : BitRangeNode → Nat
  | .Empty => 0
  | .Branch _ _ _ left right => numNodes left + numNodes right + 1

/-- The logical bit sequence of a node: the in-order traversal after all
lazy reversals are applied. -/
def toList : BitRangeNode → List Bool
  | .Empty => []
  | .Branch here _ reversed left right =>
    if reversed then (toList right).reverse ++ here :: (toList left).reverse
    else toList left ++ here :: toList right

/-- Every stored size annotation equals the branch count of its subtree. -/
def sizeOk : BitRangeNode → Bool
  | .Empty => true
  | .Branch _ s _ left right =>
    (s == ((numNodes left + numNodes right + 1 : Nat) : Int))
      && sizeOk left && sizeOk right

/-- `splay` specialised to bit nodes. -/
def bsplay (z : TreeZipper Bool BitRangeNode) : TreeZipper Bool BitRangeNode :=
  splay BitRangeNode.separate BitRangeNode.combine BitRangeNode.is_branch z

/-- `zip_tree` specialised to bit nodes. -/
def bzip (z : TreeZipper Bool BitRangeNode) : BitRangeNode :=
  zip_tree BitRangeNode.combine z

/-- The loop of `find_index`, with fuel bounding the descent depth. -/
def find_index_go : Nat → Int → List (TreeZipperStep Bool BitRangeNode) →
    BitRangeNode → TreeZipper Bool BitRangeNode
  | 0, _, path, _ => ⟨path, .Empty⟩
  | fuel + 1, remaining, path, n =>
    match BitRangeNode.separate n with
    | .Empty => ⟨path, BitRangeNode.combine .Empty⟩
    | .Branch val left right =>
      let left_size := get_size left
      if left_size < remaining then
        find_index_go fuel (remaining - left_size - 1)
          (⟨.Right, val, left⟩ :: path) right
      else if left_size = remaining then
        ⟨path, BitRangeNode.combine (.Branch val left right)⟩
      else
        find_index_go fuel remaining (⟨.Left, val, right⟩ :: path) left

/-- `find_index` starting from a given seed path. -/
def find_index_at (remaining : Int) (path : List (TreeZipperStep Bool BitRangeNode))
    (n : BitRangeNode) : TreeZipper Bool BitRangeNode :=
  find_index_go (numNodes n + 1) remaining path n

/-- `find_index`: descend to the node at the given in-order position. -/
def find_index (root : BitRangeNode) (index : Int) : TreeZipper Bool BitRangeNode :=
  find_index_at index [] root

/-- The loop of `end`, with fuel bounding the descent depth. -/
def end_go : Nat → List (TreeZipperStep Bool BitRangeNode) → BitRangeNode →
    TreeZipper Bool BitRangeNode
  | 0, path, _ => ⟨path, .Empty⟩
  | fuel + 1, path, n =>
    match BitRangeNode.separate n with
    | .Empty => ⟨path, BitRangeNode.combine .Empty⟩
    | .Branch val left right => end_go fuel (⟨.Right, val, left⟩ :: path) right

/-- `end`: the zipper focused on the `Empty` past the last element. -/
def end_zipper (root : BitRangeNode) : TreeZipper Bool BitRangeNode :=
  end_go (numNodes root + 1) [] root

/-- `isolate_interval`: bring the subtree for the requested interval into
the focus of a zipper. -/
def isolate_interval (root : BitRangeNode) (index_start index_end : Int) :
    TreeZipper Bool BitRangeNode :=
  if index_start ≤ 0 then
    if index_end ≥ get_size root then root_zipper root
    else left_zipper BitRangeNode.separate BitRangeNode.combine
      (bsplay (find_index root index_end))
  else
    if index_end ≥ get_size root then
      right_zipper BitRangeNode.separate BitRangeNode.combine
        (bsplay (find_index root (index_start - 1)))
    else
      let r1 := bzip (bsplay (find_index root index_start))
      let r2 := bzip (bsplay (find_index r1 (index_start - 1)))
      let r3 := bzip (bsplay (find_index r2 index_end))
      let zipper := right_zipper BitRangeNode.separate BitRangeNode.combine
        (find_index r3 (index_start - 1))
      if BitRangeNode.is_branch zipper.here then zipper
      else right_zipper BitRangeNode.separate BitRangeNode.combine
        (rotate_zipper BitRangeNode.separate BitRangeNode.combine
          (parent_zipper BitRangeNode.combine zipper))

/-- The reversible sequence container. -/
structure BitRange where
  root : BitRangeNode
deriving DecidableEq

/-- The loop of `BitRange::new`: insert at the right end, splay, zip. -/
def new_go : Nat → BitRangeNode → BitRangeNode
  | 0, root => root
  | k + 1, root =>
    let z := end_zipper root
    new_go k (bzip (bsplay ⟨z.path, BitRangeNode.combine (.Branch false .Empty .Empty)⟩))

/-- `BitRange::new(n)`: a sequence of `n` false bits (none for `n ≤ 0`). -/
def BitRange.new (n : Int) : BitRange :=
  ⟨new_go n.toNat .Empty⟩

/-- `BitRange::set`: replace the value at the focused branch, keeping its
stored size, flag and children; no-op focus when out of range. -/
def BitRange.set (b : BitRange) (index : Int) (val : Bool) : BitRange :=
  let z := find_index b.root index
  let here :=
    match z.here with
    | .Empty => BitRangeNode.Empty
    | .Branch _ size reversed left right => .Branch val size reversed left right
  ⟨bzip (bsplay ⟨z.path, here⟩)⟩

/-- `BitRange::get`: the bit at the focused branch plus the restructured
container. -/
def BitRange.get (b : BitRange) (index : Int) : Option Bool × BitRange :=
  let z := find_index b.root index
  let result :=
    match z.here with
    | .Empty => none
    | .Branch h _ _ _ _ => some h
  (result, ⟨bzip (bsplay z)⟩)

/-- `BitRange::reverse_range`: isolate the interval, toggle its flag, zip. -/
def BitRange.reverse_range (b : BitRange) (index_start index_end : Int) : BitRange :=
  let z := isolate_interval b.root index_start index_end
  ⟨bzip ⟨z.path, Reversible.reversed z.here⟩⟩

/-- The states a `BitRange` can reach from `new` by the public operations. -/
inductive Reachable : BitRange → Prop where
  | new (n : Int) : Reachable (BitRange.new n)
  | set {b : BitRange} (i : Int) (v : Bool) : Reachable b → Reachable (b.set i v)
  | get {b : BitRange} (i : Int) : Reachable b → Reachable (b.get i).2
  | reverse {b : BitRange} (i j : Int) : Reachable b →
      Reachable (b.reverse_range i j)

/-- Reverse the half-open segment `[a, b)` of a list. -/
def revSegment (l : List Bool) (a b : Nat) : List Bool :=
  l.take a ++ ((l.take b).drop a).reverse ++ l.drop b

/-- Every sibling stored on a zipper path satisfies the invariant `P`. -/
def pathOk {A B : Type} (P : B → Prop) (p : List (TreeZipperStep A B)) : Prop :=
  ∀ s ∈ p, P s.sibling

/-! ## Generic lemmas about zipping and splaying

These are proved once, over an abstract `combine` / `separate` pair
subject to the laws that both node types satisfy: `toL` is the logical
in-order contents, `P` an arbitrary per-node invariant. -/

section GenericLemmas

variable {A B : Type}
variable (comb : TreeF A B → B) (sep : B → TreeF A B) (isb : B → Bool)
variable (toL : B → List A) (P : B → Prop)

theorem pathBefore_nil : pathBefore toL ([] : List (TreeZipperStep A B)) = [] := rfl

theorem pathBefore_left (p : A) (sib : B) (rest : List (TreeZipperStep A B)) :
    pathBefore toL (⟨.Left, p, sib⟩ :: rest) = pathBefore toL rest := rfl

theorem pathBefore_right (p : A) (sib : B) (rest : List (TreeZipperStep A B)) :
    pathBefore toL (⟨.Right, p, sib⟩ :: rest) =
      pathBefore toL rest ++ toL sib ++ [p] := rfl

theorem pathAfter_nil : pathAfter toL ([] : List (TreeZipperStep A B)) = [] := rfl

theorem pathAfter_left (p : A) (sib : B) (rest : List (TreeZipperStep A B)) :
    pathAfter toL (⟨.Left, p, sib⟩ :: rest) =
      (p :: toL sib) ++ pathAfter toL rest := rfl

theorem pathAfter_right (p : A) (sib : B) (rest : List (TreeZipperStep A B)) :
    pathAfter toL (⟨.Right, p, sib⟩ :: rest) = pathAfter toL rest := rfl

theorem toL_zip_go (hB : ∀ v l r, toL (comb (.Branch v l r)) = toL l ++ v :: toL r)
    (p : List (TreeZipperStep A B)) (n : B) :
    toL (zip_go comb p n) = pathBefore toL p ++ toL n ++ pathAfter toL p := by
  induction p generalizing n with
  | nil => simp [zip_go, pathBefore, pathAfter]
  | cons s rest ih =>
    obtain ⟨d, pv, sib⟩ := s
    cases d with
    | Left =>
      simp [zip_go, step_combine, ih, hB, pathBefore_left, pathAfter_left,
        List.append_assoc]
    | Right =>
      simp [zip_go, step_combine, ih, hB, pathBefore_right, pathAfter_right,
        List.append_assoc]

theorem toL_zip_tree (hB : ∀ v l r, toL (comb (.Branch v l r)) = toL l ++ v :: toL r)
    (z : TreeZipper A B) :
    toL (zip_tree comb z) =
      pathBefore toL z.path ++ toL z.here ++ pathAfter toL z.path :=
  toL_zip_go comb toL hB z.path z.here

theorem zip_go_P (hPB : ∀ v l r, P l → P r → P (comb (.Branch v l r)))
    (p : List (TreeZipperStep A B)) (n : B) (hn : P n)
    (hp : pathOk P p) : P (zip_go comb p n) := by
  induction p generalizing n with
  | nil => exact hn
  | cons s rest ih =>
    obtain ⟨d, pv, sib⟩ := s
    have hsib : P sib := hp ⟨d, pv, sib⟩ (List.mem_cons_self _ _)
    have hrest : pathOk P rest := fun s hs => hp s (by simp [hs])
    cases d with
    | Left => exact ih _ (hPB _ _ _ hn hsib) hrest
    | Right => exact ih _ (hPB _ _ _ hsib hn) hrest

theorem zip_tree_P (hPB : ∀ v l r, P l → P r → P (comb (.Branch v l r)))
    (z : TreeZipper A B) (hn : P z.here) (hp : pathOk P z.path) :
    P (zip_tree comb z) :=
  zip_go_P comb P hPB z.path z.here hn hp

theorem splay_step_one (hB : ∀ v l r, toL (comb (.Branch v l r)) = toL l ++ v :: toL r)
    (hPB : ∀ v l r, P l → P r → P (comb (.Branch v l r)))
    (v : A) (fl fr : B) (s1 : TreeZipperStep A B) (here : B)
    (hs : sep here = .Branch v fl fr) :
    ∃ fl2 fr2, splay_step sep comb ⟨[s1], here⟩ = ⟨[], comb (.Branch v fl2 fr2)⟩ ∧
      pathBefore toL ([] : List (TreeZipperStep A B)) ++ toL fl2 =
        pathBefore toL [s1] ++ toL fl ∧
      toL fr2 ++ pathAfter toL ([] : List (TreeZipperStep A B)) =
        toL fr ++ pathAfter toL [s1] ∧
      (P fl → P fr → P s1.sibling → P fl2 ∧ P fr2) := by
  obtain ⟨d, pv, sib⟩ := s1
  cases d with
  | Left =>
    refine ⟨fl, comb (.Branch pv fr sib), by simp [splay_step, hs], ?_, ?_, ?_⟩
    · simp [pathBefore_left, pathBefore_nil]
    · simp [hB, pathAfter_left, pathAfter_nil]
    · intro h1 h2 h3
      exact ⟨h1, hPB _ _ _ h2 h3⟩
  | Right =>
    refine ⟨comb (.Branch pv sib fl), fr, by simp [splay_step, hs], ?_, ?_, ?_⟩
    · simp [hB, pathBefore_right, pathBefore_nil]
    · simp [pathAfter_right, pathAfter_nil]
    · intro h1 h2 h3
      exact ⟨hPB _ _ _ h3 h1, h2⟩

theorem splay_step_two (hB : ∀ v l r, toL (comb (.Branch v l r)) = toL l ++ v :: toL r)
    (hPB : ∀ v l r, P l → P r → P (comb (.Branch v l r)))
    (v : A) (fl fr : B) (s1 s2 : TreeZipperStep A B)
    (rest : List (TreeZipperStep A B)) (here : B)
    (hs : sep here = .Branch v fl fr) :
    ∃ fl2 fr2, splay_step sep comb ⟨s1 :: s2 :: rest, here⟩ =
        ⟨rest, comb (.Branch v fl2 fr2)⟩ ∧
      pathBefore toL rest ++ toL fl2 = pathBefore toL (s1 :: s2 :: rest) ++ toL fl ∧
      toL fr2 ++ pathAfter toL rest = toL fr ++ pathAfter toL (s1 :: s2 :: rest) ∧
      (P fl → P fr → P s1.sibling → P s2.sibling → P fl2 ∧ P fr2) := by
  obtain ⟨d1, pv, sib⟩ := s1
  obtain ⟨d2, gv, uncle⟩ := s2
  cases d1 with
  | Left =>
    cases d2 with
    | Left =>
      refine ⟨fl, comb (.Branch pv fr (comb (.Branch gv sib uncle))),
        by simp [splay_step, hs], ?_, ?_, ?_⟩
      · simp [pathBefore_left]
      · simp [hB, pathAfter_left, List.append_assoc]
      · intro h1 h2 h3 h4
        exact ⟨h1, hPB _ _ _ h2 (hPB _ _ _ h3 h4)⟩
    | Right =>
      refine ⟨comb (.Branch gv uncle fl), comb (.Branch pv fr sib),
        by simp [splay_step, hs], ?_, ?_, ?_⟩
      · simp [hB, pathBefore_left, pathBefore_right, List.append_assoc]
      · simp [hB, pathAfter_left, pathAfter_right, List.append_assoc]
      · intro h1 h2 h3 h4
        exact ⟨hPB _ _ _ h4 h1, hPB _ _ _ h2 h3⟩
  | Right =>
    cases d2 with
    | Left =>
      refine ⟨comb (.Branch pv sib fl), comb (.Branch gv fr uncle),
        by simp [splay_step, hs], ?_, ?_, ?_⟩
      · simp [hB, pathBefore_left, pathBefore_right, List.append_assoc]
      · simp [hB, pathAfter_left, pathAfter_right, List.append_assoc]
      · intro h1 h2 h3 h4
        exact ⟨hPB _ _ _ h3 h1, hPB _ _ _ h2 h4⟩
    | Right =>
      refine ⟨comb (.Branch pv (comb (.Branch gv uncle sib)) fl), fr,
        by simp [splay_step, hs], ?_, ?_, ?_⟩
      · simp [hB, pathBefore_right, List.append_assoc]
      · simp [pathAfter_right]
      · intro h1 h2 h3 h4
        exact ⟨hPB _ _ _ (hPB _ _ _ h4 h3) h1, h2⟩

theorem splay_go_root (hB : ∀ v l r, toL (comb (.Branch v l r)) = toL l ++ v :: toL r)
    (hsep_comb : ∀ v l r, sep (comb (.Branch v l r)) = .Branch v l r)
    (hPB : ∀ v l r, P l → P r → P (comb (.Branch v l r)))
    (hPsep : ∀ n v l r, sep n = .Branch v l r → P n → P l ∧ P r)
    (fuel : Nat) (z : TreeZipper A B) (v : A) (fl fr : B)
    (hs : sep z.here = .Branch v fl fr) (hfuel : z.path.length ≤ fuel)
    (hP : P z.here) (hp : pathOk P z.path) :
    ∃ T FL FR, splay_go sep comb fuel z = ⟨[], T⟩ ∧ sep T = .Branch v FL FR ∧
      toL FL = pathBefore toL z.path ++ toL fl ∧
      toL FR = toL fr ++ pathAfter toL z.path ∧ P T ∧ P FL ∧ P FR := by
  induction fuel generalizing z v fl fr with
  | zero =>
    obtain ⟨path, here⟩ := z
    have hpath : path = [] := by
      cases path with
      | nil => rfl
      | cons s rest => simp at hfuel
    subst hpath
    obtain ⟨h1, h2⟩ := hPsep _ _ _ _ hs hP
    exact ⟨here, fl, fr, rfl, hs, by simp [pathBefore_nil], by simp [pathAfter_nil],
      hP, h1, h2⟩
  | succ fuel ih =>
    obtain ⟨path, here⟩ := z
    match path with
    | [] =>
      obtain ⟨h1, h2⟩ := hPsep _ _ _ _ hs hP
      exact ⟨here, fl, fr, by simp [splay_go], hs, by simp [pathBefore_nil],
        by simp [pathAfter_nil], hP, h1, h2⟩
    | [s1] =>
      obtain ⟨hfl, hfr⟩ := hPsep _ _ _ _ hs hP
      obtain ⟨fl2, fr2, heq, hb, ha, hPP⟩ :=
        splay_step_one comb sep toL P hB hPB v fl fr s1 here hs
      obtain ⟨hfl2, hfr2⟩ := hPP hfl hfr (hp s1 (by simp))
      have hstep : splay_go sep comb (fuel + 1) ⟨[s1], here⟩ =
          splay_go sep comb fuel ⟨[], comb (.Branch v fl2 fr2)⟩ := by
        simp [splay_go, heq]
      rw [hstep]
      obtain ⟨T, FL, FR, e1, e2, e3, e4, e5, e6, e7⟩ :=
        ih ⟨[], comb (.Branch v fl2 fr2)⟩ v fl2 fr2 (hsep_comb _ _ _) (by simp)
          (hPB _ _ _ hfl2 hfr2) (by intro s hs1; simp at hs1)
      refine ⟨T, FL, FR, e1, e2, ?_, ?_, e5, e6, e7⟩
      · rw [e3]
        simpa using hb
      · rw [e4]
        simpa using ha
    | s1 :: s2 :: rest =>
      obtain ⟨hfl, hfr⟩ := hPsep _ _ _ _ hs hP
      obtain ⟨fl2, fr2, heq, hb, ha, hPP⟩ :=
        splay_step_two comb sep toL P hB hPB v fl fr s1 s2 rest here hs
      obtain ⟨hfl2, hfr2⟩ := hPP hfl hfr (hp s1 (by simp)) (hp s2 (by simp))
      have hstep : splay_go sep comb (fuel + 1) ⟨s1 :: s2 :: rest, here⟩ =
          splay_go sep comb fuel ⟨rest, comb (.Branch v fl2 fr2)⟩ := by
        simp [splay_go, heq]
      rw [hstep]
      have hlen : rest.length ≤ fuel := by
        simp at hfuel
        omega
      obtain ⟨T, FL, FR, e1, e2, e3, e4, e5, e6, e7⟩ :=
        ih ⟨rest, comb (.Branch v fl2 fr2)⟩ v fl2 fr2 (hsep_comb _ _ _) hlen
          (hPB _ _ _ hfl2 hfr2) (fun s hs1 => hp s (by simp [hs1]))
      refine ⟨T, FL, FR, e1, e2, ?_, ?_, e5, e6, e7⟩
      · rw [e3, hb]
      · rw [e4, ha]

theorem splay_root (hB : ∀ v l r, toL (comb (.Branch v l r)) = toL l ++ v :: toL r)
    (hsep_comb : ∀ v l r, sep (comb (.Branch v l r)) = .Branch v l r)
    (hPB : ∀ v l r, P l → P r → P (comb (.Branch v l r)))
    (hPsep : ∀ n v l r, sep n = .Branch v l r → P n → P l ∧ P r)
    (hisb : ∀ n v l r, sep n = .Branch v l r → isb n = true)
    (z : TreeZipper A B) (v : A) (fl fr : B)
    (hs : sep z.here = .Branch v fl fr) (hP : P z.here) (hp : pathOk P z.path) :
    ∃ T FL FR, splay sep comb isb z = ⟨[], T⟩ ∧ sep T = .Branch v FL FR ∧
      toL FL = pathBefore toL z.path ++ toL fl ∧
      toL FR = toL fr ++ pathAfter toL z.path ∧ P T ∧ P FL ∧ P FR := by
  obtain ⟨path, here⟩ := z
  match path with
  | [] =>
    obtain ⟨h1, h2⟩ := hPsep _ _ _ _ hs hP
    exact ⟨here, fl, fr, by simp [splay], hs, by simp [pathBefore_nil],
      by simp [pathAfter_nil], hP, h1, h2⟩
  | s :: rest =>
    have hbr : isb here = true := hisb _ _ _ _ hs
    have : splay sep comb isb ⟨s :: rest, here⟩ =
        splay_go sep comb (s :: rest).length ⟨s :: rest, here⟩ := by
      simp [splay, hbr]
    rw [this]
    exact splay_go_root comb sep toL P hB hsep_comb hPB hPsep _ _ v fl fr hs
      (le_refl _) hP hp

theorem parent_zipper_zip (z : TreeZipper A B) :
    zip_tree comb (parent_zipper comb z) = zip_tree comb z := by
  obtain ⟨path, here⟩ := z
  cases path with
  | nil => rfl
  | cons s rest => rfl

theorem parent_zipper_P
    (hPB : ∀ v l r, P l → P r → P (comb (.Branch v l r)))
    (z : TreeZipper A B) (hn : P z.here) (hp : pathOk P z.path) :
    P (parent_zipper comb z).here ∧ pathOk P (parent_zipper comb z).path := by
  obtain ⟨path, here⟩ := z
  cases path with
  | nil => exact ⟨hn, hp⟩
  | cons s rest =>
    obtain ⟨d, pv, sib⟩ := s
    have hsib : P sib := hp ⟨d, pv, sib⟩ (List.mem_cons_self _ _)
    have hrest : pathOk P rest := fun s hs => hp s (by simp [hs])
    cases d with
    | Left => exact ⟨hPB _ _ _ hn hsib, hrest⟩
    | Right => exact ⟨hPB _ _ _ hsib hn, hrest⟩

theorem splay_step_zip (toL : B → List A)
    (hB : ∀ v l r, toL (comb (.Branch v l r)) = toL l ++ v :: toL r)
    (hE : toL (comb .Empty) = [])
    (hsepB : ∀ n v l r, sep n = .Branch v l r → toL n = toL l ++ v :: toL r)
    (hsepE : ∀ n, sep n = .Empty → toL n = [])
    (z : TreeZipper A B) :
    toL (zip_tree comb (splay_step sep comb z)) = toL (zip_tree comb z) := by
  obtain ⟨path, here⟩ := z
  rcases h : sep here with _ | ⟨v, fl, fr⟩
  · have h1 : splay_step sep comb ⟨path, here⟩ = ⟨path, comb .Empty⟩ := by
      simp [splay_step, h]
    rw [h1, toL_zip_tree comb toL hB, toL_zip_tree comb toL hB]
    simp [hE, hsepE _ h]
  · match path with
    | [] =>
      have h1 : splay_step sep comb ⟨[], here⟩ = ⟨[], comb (.Branch v fl fr)⟩ := by
        simp [splay_step, h]
      rw [h1, toL_zip_tree comb toL hB, toL_zip_tree comb toL hB]
      simp [hB, hsepB _ _ _ _ h]
    | [s1] =>
      obtain ⟨fl2, fr2, heq, hb, ha, _⟩ :=
        splay_step_one comb sep toL (fun _ => True) hB (fun _ _ _ _ _ => trivial)
          v fl fr s1 here h
      rw [heq, toL_zip_tree comb toL hB, toL_zip_tree comb toL hB]
      rw [hsepB _ _ _ _ h, hB]
      have : (pathBefore toL [] ++ toL fl2) ++ v :: (toL fr2 ++ pathAfter toL []) =
          (pathBefore toL [s1] ++ toL fl) ++ v :: (toL fr ++ pathAfter toL [s1]) := by
        rw [hb, ha]
      simpa [List.append_assoc] using this
    | s1 :: s2 :: rest =>
      obtain ⟨fl2, fr2, heq, hb, ha, _⟩ :=
        splay_step_two comb sep toL (fun _ => True) hB (fun _ _ _ _ _ => trivial)
          v fl fr s1 s2 rest here h
      rw [heq, toL_zip_tree comb toL hB, toL_zip_tree comb toL hB]
      rw [hsepB _ _ _ _ h, hB]
      have : (pathBefore toL rest ++ toL fl2) ++ v :: (toL fr2 ++ pathAfter toL rest) =
          (pathBefore toL (s1 :: s2 :: rest) ++ toL fl) ++
            v :: (toL fr ++ pathAfter toL (s1 :: s2 :: rest)) := by
        rw [hb, ha]
      simpa [List.append_assoc] using this

theorem splay_step_P (P : B → Prop) (toL : B → List A)
    (hB : ∀ v l r, toL (comb (.Branch v l r)) = toL l ++ v :: toL r)
    (hPE : P (comb .Empty))
    (hPB : ∀ v l r, P l → P r → P (comb (.Branch v l r)))
    (hPsep : ∀ n v l r, sep n = .Branch v l r → P n → P l ∧ P r)
    (z : TreeZipper A B) (hn : P z.here) (hp : pathOk P z.path) :
    P (splay_step sep comb z).here ∧ pathOk P (splay_step sep comb z).path := by
  obtain ⟨path, here⟩ := z
  rcases h : sep here with _ | ⟨v, fl, fr⟩
  · have h1 : splay_step sep comb ⟨path, here⟩ = ⟨path, comb .Empty⟩ := by
      simp [splay_step, h]
    rw [h1]
    exact ⟨hPE, hp⟩
  · obtain ⟨hfl, hfr⟩ := hPsep _ _ _ _ h hn
    match path with
    | [] =>
      have h1 : splay_step sep comb ⟨[], here⟩ = ⟨[], comb (.Branch v fl fr)⟩ := by
        simp [splay_step, h]
      rw [h1]
      exact ⟨hPB _ _ _ hfl hfr, fun s hs => by simp at hs⟩
    | [s1] =>
      obtain ⟨fl2, fr2, heq, _, _, hPP⟩ :=
        splay_step_one comb sep toL P hB hPB v fl fr s1 here h
      rw [heq]
      obtain ⟨h1, h2⟩ := hPP hfl hfr (hp s1 (by simp))
      exact ⟨hPB _ _ _ h1 h2, fun s hs => by simp at hs⟩
    | s1 :: s2 :: rest =>
      obtain ⟨fl2, fr2, heq, _, _, hPP⟩ :=
        splay_step_two comb sep toL P hB hPB v fl fr s1 s2 rest here h
      rw [heq]
      obtain ⟨h1, h2⟩ := hPP hfl hfr (hp s1 (by simp)) (hp s2 (by simp))
      exact ⟨hPB _ _ _ h1 h2, fun s hs => hp s (by simp [hs])⟩

theorem splay_go_zip (toL : B → List A)
    (hB : ∀ v l r, toL (comb (.Branch v l r)) = toL l ++ v :: toL r)
    (hE : toL (comb .Empty) = [])
    (hsepB : ∀ n v l r, sep n = .Branch v l r → toL n = toL l ++ v :: toL r)
    (hsepE : ∀ n, sep n = .Empty → toL n = [])
    (fuel : Nat) (z : TreeZipper A B) :
    toL (zip_tree comb (splay_go sep comb fuel z)) = toL (zip_tree comb z) := by
  induction fuel generalizing z with
  | zero => rfl
  | succ fuel ih =>
    obtain ⟨path, here⟩ := z
    cases path with
    | nil => rfl
    | cons s rest =>
      have h1 : splay_go sep comb (fuel + 1) ⟨s :: rest, here⟩ =
          splay_go sep comb fuel (splay_step sep comb ⟨s :: rest, here⟩) := rfl
      rw [h1, ih, splay_step_zip comb sep toL hB hE hsepB hsepE]

theorem splay_go_P (P : B → Prop) (toL : B → List A)
    (hB : ∀ v l r, toL (comb (.Branch v l r)) = toL l ++ v :: toL r)
    (hPE : P (comb .Empty))
    (hPB : ∀ v l r, P l → P r → P (comb (.Branch v l r)))
    (hPsep : ∀ n v l r, sep n = .Branch v l r → P n → P l ∧ P r)
    (fuel : Nat) (z : TreeZipper A B) (hn : P z.here) (hp : pathOk P z.path) :
    P (splay_go sep comb fuel z).here ∧ pathOk P (splay_go sep comb fuel z).path := by
  induction fuel generalizing z with
  | zero => exact ⟨hn, hp⟩
  | succ fuel ih =>
    obtain ⟨path, here⟩ := z
    cases path with
    | nil => exact ⟨hn, hp⟩
    | cons s rest =>
      have h1 : splay_go sep comb (fuel + 1) ⟨s :: rest, here⟩ =
          splay_go sep comb fuel (splay_step sep comb ⟨s :: rest, here⟩) := rfl
      rw [h1]
      obtain ⟨hn2, hp2⟩ := splay_step_P comb sep P toL hB hPE hPB hPsep _ hn hp
      exact ih _ hn2 hp2

theorem splay_zip (toL : B → List A)
    (hB : ∀ v l r, toL (comb (.Branch v l r)) = toL l ++ v :: toL r)
    (hE : toL (comb .Empty) = [])
    (hsepB : ∀ n v l r, sep n = .Branch v l r → toL n = toL l ++ v :: toL r)
    (hsepE : ∀ n, sep n = .Empty → toL n = [])
    (z : TreeZipper A B) :
    toL (zip_tree comb (splay sep comb isb z)) = toL (zip_tree comb z) := by
  unfold splay
  by_cases h : z.path.isEmpty
  · simp [h]
  · simp only [h, Bool.false_eq_true, if_false]
    rw [splay_go_zip comb sep toL hB hE hsepB hsepE]
    by_cases h2 : isb z.here
    · simp [h2]
    · simp [h2, parent_zipper_zip]

theorem splay_P (P : B → Prop) (toL : B → List A)
    (hB : ∀ v l r, toL (comb (.Branch v l r)) = toL l ++ v :: toL r)
    (hPE : P (comb .Empty))
    (hPB : ∀ v l r, P l → P r → P (comb (.Branch v l r)))
    (hPsep : ∀ n v l r, sep n = .Branch v l r → P n → P l ∧ P r)
    (z : TreeZipper A B) (hn : P z.here) (hp : pathOk P z.path) :
    P (splay sep comb isb z).here ∧ pathOk P (splay sep comb isb z).path := by
  unfold splay
  by_cases h : z.path.isEmpty
  · simp only [h, if_true]
    exact ⟨hn, hp⟩
  · simp only [h, Bool.false_eq_true, if_false]
    by_cases h2 : isb z.here
    · simp only [h2, if_true]
      exact splay_go_P comb sep P toL hB hPE hPB hPsep _ _ hn hp
    · simp only [h2, Bool.false_eq_true, if_false]
      obtain ⟨hn2, hp2⟩ := parent_zipper_P comb P hPB z hn hp
      exact splay_go_P comb sep P toL hB hPE hPB hPsep _ _ hn2 hp2

end GenericLemmas

/-! ## Basic facts about `BitRangeNode` -/

theorem toList_reversed (t : BitRangeNode) :
    toList (Reversible.reversed t) = (toList t).reverse := by
  cases t with
  | Empty => rfl
  | Branch h s r l rr =>
    cases r <;> simp [Reversible.reversed, toList]

theorem numNodes_reversed (t : BitRangeNode) :
    numNodes (Reversible.reversed t) = numNodes t := by
  cases t <;> rfl

theorem sizeOk_reversed (t : BitRangeNode) :
    sizeOk (Reversible.reversed t) = sizeOk t := by
  cases t with
  | Empty => rfl
  | Branch h s r l rr => simp [Reversible.reversed, sizeOk]

theorem length_toList (t : BitRangeNode) : (toList t).length = numNodes t := by
  induction t with
  | Empty => rfl
  | Branch h s r l rr ihl ihr =>
    cases r <;> simp [toList, numNodes, ihl, ihr] <;> omega

theorem get_size_eq {t : BitRangeNode} (h : sizeOk t = true) :
    get_size t = (numNodes t : Int) := by
  cases t with
  | Empty => rfl
  | Branch hh s r l rr =>
    simp [sizeOk, Bool.and_eq_true, beq_iff_eq] at h
    simpa [get_size, numNodes] using h.1.1

theorem bcombB (v : Bool) (l r : BitRangeNode) :
    toList (BitRangeNode.combine (.Branch v l r)) = toList l ++ v :: toList r := by
  simp [BitRangeNode.combine, toList]

theorem bcombE : toList (BitRangeNode.combine .Empty) = [] := rfl

theorem bsepE (n : BitRangeNode) (h : BitRangeNode.separate n = .Empty) :
    n = .Empty := by
  cases n with
  | Empty => rfl
  | Branch hh s rev l r =>
    cases rev <;> simp [BitRangeNode.separate] at h

theorem bsepB (n : BitRangeNode) (v : Bool) (l r : BitRangeNode)
    (h : BitRangeNode.separate n = .Branch v l r) :
    toList n = toList l ++ v :: toList r := by
  cases n with
  | Empty => simp [BitRangeNode.separate] at h
  | Branch hh s rev ll rr =>
    cases rev with
    | false =>
      simp [BitRangeNode.separate] at h
      obtain ⟨h1, h2, h3⟩ := h
      subst h1; subst h2; subst h3
      simp [toList]
    | true =>
      simp [BitRangeNode.separate] at h
      obtain ⟨h1, h2, h3⟩ := h
      subst h1; subst h2; subst h3
      simp [toList, toList_reversed]

theorem bsepE_toList (n : BitRangeNode) (h : BitRangeNode.separate n = .Empty) :
    toList n = [] := by
  rw [bsepE n h]; rfl

theorem bsep_comb (v : Bool) (l r : BitRangeNode) :
    BitRangeNode.separate (BitRangeNode.combine (.Branch v l r)) = .Branch v l r := by
  simp [BitRangeNode.combine, BitRangeNode.separate]

theorem bisb (n : BitRangeNode) (v : Bool) (l r : BitRangeNode)
    (h : BitRangeNode.separate n = .Branch v l r) :
    BitRangeNode.is_branch n = true := by
  cases n with
  | Empty => simp [BitRangeNode.separate] at h
  | Branch _ _ _ _ _ => rfl

theorem bsep_numNodes (n : BitRangeNode) (v : Bool) (l r : BitRangeNode)
    (h : BitRangeNode.separate n = .Branch v l r) :
    numNodes n = numNodes l + numNodes r + 1 := by
  cases n with
  | Empty => simp [BitRangeNode.separate] at h
  | Branch hh s rev ll rr =>
    cases rev with
    | false =>
      simp [BitRangeNode.separate] at h
      obtain ⟨h1, h2, h3⟩ := h
      subst h1; subst h2; subst h3
      simp [numNodes]
    | true =>
      simp [BitRangeNode.separate] at h
      obtain ⟨h1, h2, h3⟩ := h
      subst h1; subst h2; subst h3
      simp [numNodes, numNodes_reversed]
      omega

theorem bsep_sizeOk (n : BitRangeNode) (v : Bool) (l r : BitRangeNode)
    (h : BitRangeNode.separate n = .Branch v l r) (hs : sizeOk n = true) :
    sizeOk l = true ∧ sizeOk r = true := by
  cases n with
  | Empty => simp [BitRangeNode.separate] at h
  | Branch hh s rev ll rr =>
    simp [sizeOk, Bool.and_eq_true] at hs
    cases rev with
    | false =>
      simp [BitRangeNode.separate] at h
      obtain ⟨h1, h2, h3⟩ := h
      subst h2; subst h3
      exact ⟨hs.1.2, hs.2⟩
    | true =>
      simp [BitRangeNode.separate] at h
      obtain ⟨h1, h2, h3⟩ := h
      subst h2; subst h3
      simp [sizeOk_reversed]
      exact ⟨hs.2, hs.1.2⟩

theorem bPE : sizeOk (BitRangeNode.combine .Empty) = true := rfl

theorem bPB (v : Bool) (l r : BitRangeNode) (hl : sizeOk l = true)
    (hr : sizeOk r = true) :
    sizeOk (BitRangeNode.combine (.Branch v l r)) = true := by
  simp only [BitRangeNode.combine, sizeOk, Bool.and_eq_true, beq_iff_eq, hl, hr,
    get_size_eq hl, get_size_eq hr, and_true]
  push_cast
  ring

theorem bPsep (n : BitRangeNode) (v : Bool) (l r : BitRangeNode)
    (h : BitRangeNode.separate n = .Branch v l r) (hs : sizeOk n = true) :
    sizeOk l = true ∧ sizeOk r = true :=
  bsep_sizeOk n v l r h hs

theorem bsep_get_size (n : BitRangeNode) (v : Bool) (l r : BitRangeNode)
    (h : BitRangeNode.separate n = .Branch v l r) (hs : sizeOk n = true) :
    get_size l = ((toList l).length : Int) ∧ get_size r = ((toList r).length : Int) := by
  obtain ⟨h1, h2⟩ := bsep_sizeOk n v l r h hs
  rw [get_size_eq h1, get_size_eq h2, length_toList, length_toList]
  exact ⟨rfl, rfl⟩

/-! ## Specialised zipper lemmas for bit nodes -/

theorem toList_bzip (z : TreeZipper Bool BitRangeNode) :
    toList (bzip z) = pathBefore toList z.path ++ toList z.here ++ pathAfter toList z.path :=
  toL_zip_tree BitRangeNode.combine toList bcombB z

theorem bzip_sizeOk (z : TreeZipper Bool BitRangeNode) (h1 : sizeOk z.here = true)
    (h2 : pathOk (fun m => sizeOk m = true) z.path) : sizeOk (bzip z) = true :=
  zip_tree_P BitRangeNode.combine (fun m => sizeOk m = true) bPB z h1 h2

theorem toList_bzip_bsplay (z : TreeZipper Bool BitRangeNode) :
    toList (bzip (bsplay z)) = toList (bzip z) :=
  splay_zip BitRangeNode.combine BitRangeNode.separate BitRangeNode.is_branch toList
    bcombB bcombE bsepB bsepE_toList z

theorem bsplay_P (z : TreeZipper Bool BitRangeNode) (h1 : sizeOk z.here = true)
    (h2 : pathOk (fun m => sizeOk m = true) z.path) :
    sizeOk (bsplay z).here = true ∧ pathOk (fun m => sizeOk m = true) (bsplay z).path :=
  splay_P BitRangeNode.combine BitRangeNode.separate BitRangeNode.is_branch
    (fun m => sizeOk m = true) toList bcombB bPE bPB bPsep z h1 h2

theorem bsplay_root (z : TreeZipper Bool BitRangeNode) (v : Bool)
    (fl fr : BitRangeNode) (hs : BitRangeNode.separate z.here = .Branch v fl fr)
    (h1 : sizeOk z.here = true) (h2 : pathOk (fun m => sizeOk m = true) z.path) :
    ∃ T FL FR, bsplay z = ⟨[], T⟩ ∧ BitRangeNode.separate T = .Branch v FL FR ∧
      toList FL = pathBefore toList z.path ++ toList fl ∧
      toList FR = toList fr ++ pathAfter toList z.path ∧
      sizeOk T = true ∧ sizeOk FL = true ∧ sizeOk FR = true :=
  splay_root BitRangeNode.combine BitRangeNode.separate BitRangeNode.is_branch toList
    (fun m => sizeOk m = true) bcombB bsep_comb bPB bPsep bisb z v fl fr hs h1 h2

/-! ## The `find_index` descent -/

theorem find_index_go_in : ∀ (fuel : Nat) (rem : Int)
    (path : List (TreeZipperStep Bool BitRangeNode)) (n : BitRangeNode),
    numNodes n < fuel → sizeOk n = true → 0 ≤ rem → rem < (numNodes n : Int) →
    ∃ news val l r,
      find_index_go fuel rem path n =
        ⟨news ++ path, BitRangeNode.combine (.Branch val l r)⟩ ∧
      sizeOk l = true ∧ sizeOk r = true ∧
      pathOk (fun m => sizeOk m = true) news ∧
      pathBefore toList (news ++ path) ++ toList l =
        pathBefore toList path ++ (toList n).take rem.toNat ∧
      pathBefore toList (news ++ path) ++ toList l ++ [val] =
        pathBefore toList path ++ (toList n).take (rem.toNat + 1) ∧
      toList r ++ pathAfter toList (news ++ path) =
        (toList n).drop (rem.toNat + 1) ++ pathAfter toList path := by
  intro fuel
  induction fuel with
  | zero => intro rem path n hfuel; omega
  | succ fuel ih =>
    intro rem path n hfuel hsz h0 hlt
    rcases hsep : BitRangeNode.separate n with _ | ⟨val, left, right⟩
    · rw [bsepE n hsep] at hlt
      simp [numNodes] at hlt
      omega
    · obtain ⟨hszl, hszr⟩ := bsep_sizeOk n _ _ _ hsep hsz
      have hnum : numNodes n = numNodes left + numNodes right + 1 :=
        bsep_numNodes n _ _ _ hsep
      have hlist : toList n = toList left ++ [val] ++ toList right := by
        simpa using bsepB n _ _ _ hsep
      have hlen : (toList left).length = numNodes left := length_toList left
      have hls : get_size left = (numNodes left : Int) := get_size_eq hszl
      have hstep : find_index_go (fuel + 1) rem path n =
          (if get_size left < rem then
            find_index_go fuel (rem - get_size left - 1)
              (⟨.Right, val, left⟩ :: path) right
          else if get_size left = rem then
            ⟨path, BitRangeNode.combine (.Branch val left right)⟩
          else find_index_go fuel rem (⟨.Left, val, right⟩ :: path) left) := by
        simp [find_index_go, hsep]
      by_cases hcmp : get_size left < rem
      · rw [hstep, if_pos hcmp]
        have hrem2a : (0 : Int) ≤ rem - get_size left - 1 := by omega
        have hrem2b : rem - get_size left - 1 < (numNodes right : Int) := by
          rw [hls] at hcmp ⊢
          omega
        obtain ⟨news2, val2, l2, r2, heq, e1, e2, e3, e4, e5, e6⟩ :=
          ih (rem - get_size left - 1) (⟨.Right, val, left⟩ :: path) right
            (by omega) hszr hrem2a hrem2b
        refine ⟨news2 ++ [⟨.Right, val, left⟩], val2, l2, r2, ?_, e1, e2, ?_, ?_, ?_, ?_⟩
        · rw [heq]
          simp
        · intro st hst
          simp at hst
          rcases hst with hst | hst
          · exact e3 st hst
          · rw [hst]
            exact hszl
        · have hsplit : rem.toNat = (toList left ++ [val]).length +
              (rem - get_size left - 1).toNat := by
            simp [hlen, hls] at *
            omega
          simp only [List.append_assoc, List.singleton_append]
          rw [e4]
          simp only [pathBefore_right, hlist, hsplit, List.take_append]
          simp [List.append_assoc]
        · have hsplit : rem.toNat + 1 = (toList left ++ [val]).length +
              ((rem - get_size left - 1).toNat + 1) := by
            simp [hlen, hls] at *
            omega
          simp only [List.append_assoc, List.singleton_append]
          rw [← List.append_assoc (pathBefore toList (news2 ++ ⟨.Right, val, left⟩ :: path)), e5]
          simp only [pathBefore_right, hlist, hsplit, List.take_append]
          simp [List.append_assoc]
        · have hsplit : rem.toNat + 1 + 1 - 1 = (toList left ++ [val]).length +
              ((rem - get_size left - 1).toNat + 1) := by
            simp [hlen, hls] at *
            omega
          have hsplit2 : rem.toNat + 1 = (toList left ++ [val]).length +
              ((rem - get_size left - 1).toNat + 1) := by
            simp [hlen, hls] at *
            omega
          simp only [List.append_assoc, List.singleton_append]
          rw [e6]
          simp only [pathAfter_right, hlist, hsplit2, List.drop_append]
      · by_cases hcmp2 : get_size left = rem
        · rw [hstep, if_neg hcmp, if_pos hcmp2]
          have hrem : rem.toNat = (toList left).length := by
            rw [hlen]
            omega
          refine ⟨[], val, left, right, by simp, hszl, hszr, by intro st hst; simp at hst,
            ?_, ?_, ?_⟩
          · rw [hlist, hrem]
            rw [List.append_assoc, List.take_append_of_le_length (by simp),
              List.take_length]
            simp
          · have : rem.toNat + 1 = (toList left).length + 1 := by omega
            rw [hlist, this]
            have h5 : (toList left ++ [val] ++ toList right).take
                ((toList left).length + 1) = toList left ++ [val] := by
              rw [show (toList left).length + 1 = (toList left ++ [val]).length from
                by simp]
              simp only [List.take_left]
            rw [h5]
            simp [List.append_assoc]
          · have : rem.toNat + 1 = (toList left ++ [val]).length := by
              simp
              omega
            rw [hlist, this, List.drop_left]
            simp
        · rw [hstep, if_neg hcmp, if_neg hcmp2]
          have hlt2 : rem < (numNodes left : Int) := by
            rw [hls] at hcmp hcmp2
            omega
          obtain ⟨news2, val2, l2, r2, heq, e1, e2, e3, e4, e5, e6⟩ :=
            ih rem (⟨.Left, val, right⟩ :: path) left (by omega) hszl h0 hlt2
          refine ⟨news2 ++ [⟨.Left, val, right⟩], val2, l2, r2, ?_, e1, e2, ?_, ?_, ?_, ?_⟩
          · rw [heq]
            simp
          · intro st hst
            simp at hst
            rcases hst with hst | hst
            · exact e3 st hst
            · rw [hst]
              exact hszr
          · have hble : rem.toNat ≤ (toList left).length := by
              rw [hlen]
              omega
            simp only [List.append_assoc, List.singleton_append]
            rw [e4]
            simp only [pathBefore_left, hlist]
            rw [List.append_assoc, List.take_append_of_le_length hble]
          · have hble : rem.toNat + 1 ≤ (toList left).length := by
              rw [hlen]
              omega
            simp only [List.append_assoc, List.singleton_append]
            rw [← List.append_assoc (pathBefore toList (news2 ++ ⟨.Left, val, right⟩ :: path)), e5]
            simp only [pathBefore_left, hlist]
            rw [List.append_assoc, List.take_append_of_le_length hble]
          · have hble : rem.toNat + 1 ≤ (toList left).length := by
              rw [hlen]
              omega
            simp only [List.append_assoc, List.singleton_append]
            rw [e6]
            simp only [pathAfter_left, hlist]
            rw [List.append_assoc, List.drop_append_of_le_length hble]
            simp [List.append_assoc]

theorem find_index_go_out : ∀ (fuel : Nat) (rem : Int)
    (path : List (TreeZipperStep Bool BitRangeNode)) (n : BitRangeNode),
    numNodes n < fuel → sizeOk n = true →
    (rem < 0 ∨ (numNodes n : Int) ≤ rem) →
    ∃ news,
      find_index_go fuel rem path n = ⟨news ++ path, BitRangeNode.Empty⟩ ∧
      pathOk (fun m => sizeOk m = true) news ∧
      pathBefore toList (news ++ path) ++ pathAfter toList (news ++ path) =
        pathBefore toList path ++ toList n ++ pathAfter toList path := by
  intro fuel
  induction fuel with
  | zero => intro rem path n hfuel; omega
  | succ fuel ih =>
    intro rem path n hfuel hsz hout
    rcases hsep : BitRangeNode.separate n with _ | ⟨val, left, right⟩
    · have hn : n = .Empty := bsepE n hsep
      refine ⟨[], ?_, by intro st hst; simp at hst, ?_⟩
      · simp [find_index_go, hsep, BitRangeNode.combine]
      · subst hn
        simp [toList]
    · obtain ⟨hszl, hszr⟩ := bsep_sizeOk n _ _ _ hsep hsz
      have hnum : numNodes n = numNodes left + numNodes right + 1 :=
        bsep_numNodes n _ _ _ hsep
      have hlist : toList n = toList left ++ [val] ++ toList right := by
        simpa using bsepB n _ _ _ hsep
      have hls : get_size left = (numNodes left : Int) := get_size_eq hszl
      have hstep : find_index_go (fuel + 1) rem path n =
          (if get_size left < rem then
            find_index_go fuel (rem - get_size left - 1)
              (⟨.Right, val, left⟩ :: path) right
          else if get_size left = rem then
            ⟨path, BitRangeNode.combine (.Branch val left right)⟩
          else find_index_go fuel rem (⟨.Left, val, right⟩ :: path) left) := by
        simp [find_index_go, hsep]
      rcases hout with hout | hout
      · have hcmp : ¬ get_size left < rem := by rw [hls]; omega
        have hcmp2 : ¬ get_size left = rem := by rw [hls]; omega
        rw [hstep, if_neg hcmp, if_neg hcmp2]
        obtain ⟨news2, heq, e3, e4⟩ :=
          ih rem (⟨.Left, val, right⟩ :: path) left (by omega) hszl (Or.inl hout)
        refine ⟨news2 ++ [⟨.Left, val, right⟩], ?_, ?_, ?_⟩
        · rw [heq]
          simp
        · intro st hst
          simp at hst
          rcases hst with hst | hst
          · exact e3 st hst
          · rw [hst]
            exact hszr
        · simp only [List.append_assoc, List.singleton_append]
          rw [e4]
          simp [pathBefore_left, pathAfter_left, hlist, List.append_assoc]
      · have hcmp : get_size left < rem := by rw [hls]; omega
        rw [hstep, if_pos hcmp]
        have hout2 : (numNodes right : Int) ≤ rem - get_size left - 1 := by
          rw [hls]
          omega
        obtain ⟨news2, heq, e3, e4⟩ :=
          ih (rem - get_size left - 1) (⟨.Right, val, left⟩ :: path) right
            (by omega) hszr (Or.inr hout2)
        refine ⟨news2 ++ [⟨.Right, val, left⟩], ?_, ?_, ?_⟩
        · rw [heq]
          simp
        · intro st hst
          simp at hst
          rcases hst with hst | hst
          · exact e3 st hst
          · rw [hst]
            exact hszl
        · simp only [List.append_assoc, List.singleton_append]
          rw [e4]
          simp [pathBefore_right, pathAfter_right, hlist, List.append_assoc]

/-! ## Small list helpers -/

theorem take_push {α : Type} {l : List α} {k : Nat} {a : α}
    (h : l.take k ++ [a] = l.take (k + 1)) : l[k]? = some a := by
  rw [List.take_succ] at h
  have h2 : [a] = l[k]?.toList := List.append_cancel_left h
  cases h3 : l[k]? with
  | none => rw [h3] at h2; simp at h2
  | some b =>
    rw [h3] at h2
    simp at h2
    rw [h2]

theorem drop_cons_elem {α : Type} {l : List α} {k : Nat} {a : α}
    (h : l.take k ++ [a] = l.take (k + 1)) (hk : k < l.length) :
    l.drop k = a :: l.drop (k + 1) := by
  have h1 : l[k]? = some a := take_push h
  have h2 : l[k] = a := by
    have := List.getElem?_eq_some.mp h1
    obtain ⟨_, h3⟩ := this
    exact h3
  rw [List.drop_eq_getElem_cons hk, h2]

theorem numNodes_zero {t : BitRangeNode} (h : numNodes t = 0) : t = .Empty := by
  cases t with
  | Empty => rfl
  | Branch hh s r l rr => simp [numNodes] at h

theorem toList_nil {t : BitRangeNode} (h : toList t = []) : t = .Empty := by
  have := length_toList t
  rw [h] at this
  exact numNodes_zero this.symm

/-! ## Fuel irrelevance and step equations for `find_index` -/

theorem find_index_go_fuel : ∀ (fuel fuel2 : Nat) (rem : Int)
    (path : List (TreeZipperStep Bool BitRangeNode)) (n : BitRangeNode),
    numNodes n < fuel → numNodes n < fuel2 →
    find_index_go fuel rem path n = find_index_go fuel2 rem path n := by
  intro fuel
  induction fuel with
  | zero => intro fuel2 rem path n h; omega
  | succ fuel ih =>
    intro fuel2 rem path n h1 h2
    cases fuel2 with
    | zero => omega
    | succ fuel2 =>
      rcases hsep : BitRangeNode.separate n with _ | ⟨val, left, right⟩
      · simp [find_index_go, hsep]
      · have hnum : numNodes n = numNodes left + numNodes right + 1 :=
          bsep_numNodes n _ _ _ hsep
        simp only [find_index_go, hsep]
        by_cases hc1 : get_size left < rem
        · simp only [if_pos hc1]
          exact ih fuel2 _ _ right (by omega) (by omega)
        · by_cases hc2 : get_size left = rem
          · simp [if_neg hc1, if_pos hc2]
          · simp only [if_neg hc1, if_neg hc2]
            exact ih fuel2 _ _ left (by omega) (by omega)

theorem find_index_at_eq (rem : Int) (path : List (TreeZipperStep Bool BitRangeNode))
    (n : BitRangeNode) (fuel : Nat) (h : numNodes n < fuel) :
    find_index_go fuel rem path n = find_index_at rem path n :=
  find_index_go_fuel fuel (numNodes n + 1) rem path n h (by omega)

theorem find_index_at_empty (rem : Int) (path : List (TreeZipperStep Bool BitRangeNode))
    (n : BitRangeNode) (h : BitRangeNode.separate n = .Empty) :
    find_index_at rem path n = ⟨path, .Empty⟩ := by
  simp [find_index_at, find_index_go, h, BitRangeNode.combine]

theorem find_index_at_right (rem : Int) (path : List (TreeZipperStep Bool BitRangeNode))
    (n : BitRangeNode) (val : Bool) (left right : BitRangeNode)
    (h : BitRangeNode.separate n = .Branch val left right)
    (hc : get_size left < rem) :
    find_index_at rem path n =
      find_index_at (rem - get_size left - 1) (⟨.Right, val, left⟩ :: path) right := by
  have hnum : numNodes n = numNodes left + numNodes right + 1 := bsep_numNodes n _ _ _ h
  unfold find_index_at
  simp only [find_index_go, h, if_pos hc]
  exact find_index_go_fuel (numNodes n) (numNodes right + 1)
    (rem - get_size left - 1) (⟨.Right, val, left⟩ :: path) right (by omega) (by omega)

theorem find_index_at_stop (rem : Int) (path : List (TreeZipperStep Bool BitRangeNode))
    (n : BitRangeNode) (val : Bool) (left right : BitRangeNode)
    (h : BitRangeNode.separate n = .Branch val left right)
    (hc : get_size left = rem) :
    find_index_at rem path n = ⟨path, BitRangeNode.combine (.Branch val left right)⟩ := by
  unfold find_index_at
  simp [find_index_go, h, hc]

theorem find_index_at_left (rem : Int) (path : List (TreeZipperStep Bool BitRangeNode))
    (n : BitRangeNode) (val : Bool) (left right : BitRangeNode)
    (h : BitRangeNode.separate n = .Branch val left right)
    (hc : rem < get_size left) :
    find_index_at rem path n =
      find_index_at rem (⟨.Left, val, right⟩ :: path) left := by
  have hnum : numNodes n = numNodes left + numNodes right + 1 := bsep_numNodes n _ _ _ h
  unfold find_index_at
  simp only [find_index_go, h, if_neg (by omega : ¬ get_size left < rem),
    if_neg (by omega : ¬ get_size left = rem)]
  exact find_index_go_fuel (numNodes n) (numNodes left + 1)
    rem (⟨.Left, val, right⟩ :: path) left (by omega) (by omega)

theorem find_index_go_P : ∀ (fuel : Nat) (rem : Int)
    (path : List (TreeZipperStep Bool BitRangeNode)) (n : BitRangeNode),
    sizeOk n = true → pathOk (fun m => sizeOk m = true) path →
    sizeOk (find_index_go fuel rem path n).here = true ∧
      pathOk (fun m => sizeOk m = true) (find_index_go fuel rem path n).path := by
  intro fuel
  induction fuel with
  | zero =>
    intro rem path n hn hp
    exact ⟨rfl, hp⟩
  | succ fuel ih =>
    intro rem path n hn hp
    rcases hsep : BitRangeNode.separate n with _ | ⟨val, left, right⟩
    · simp only [find_index_go, hsep]
      exact ⟨rfl, hp⟩
    · obtain ⟨hl, hr⟩ := bsep_sizeOk n _ _ _ hsep hn
      simp only [find_index_go, hsep]
      by_cases hc1 : get_size left < rem
      · simp only [if_pos hc1]
        refine ih _ _ right hr ?_
        intro s hs
        rcases List.mem_cons.mp hs with hs | hs
        · rw [hs]; exact hl
        · exact hp s hs
      · by_cases hc2 : get_size left = rem
        · simp only [if_neg hc1, if_pos hc2]
          exact ⟨bPB _ _ _ hl hr, hp⟩
        · simp only [if_neg hc1, if_neg hc2]
          refine ih _ _ left hl ?_
          intro s hs
          rcases List.mem_cons.mp hs with hs | hs
          · rw [hs]; exact hr
          · exact hp s hs

/-! ## The `end` descent and `BitRange::new` -/

theorem end_go_spec : ∀ (fuel : Nat)
    (path : List (TreeZipperStep Bool BitRangeNode)) (n : BitRangeNode),
    numNodes n < fuel → sizeOk n = true →
    ∃ news, end_go fuel path n = ⟨news ++ path, .Empty⟩ ∧
      pathOk (fun m => sizeOk m = true) news ∧
      pathBefore toList (news ++ path) = pathBefore toList path ++ toList n ∧
      pathAfter toList (news ++ path) = pathAfter toList path := by
  intro fuel
  induction fuel with
  | zero => intro path n h; omega
  | succ fuel ih =>
    intro path n hfuel hsz
    rcases hsep : BitRangeNode.separate n with _ | ⟨val, left, right⟩
    · refine ⟨[], ?_, by intro s hs; simp at hs, ?_, ?_⟩
      · simp [end_go, hsep, BitRangeNode.combine]
      · rw [bsepE n hsep]; simp [toList]
      · simp
    · obtain ⟨hl, hr⟩ := bsep_sizeOk n _ _ _ hsep hsz
      have hnum : numNodes n = numNodes left + numNodes right + 1 :=
        bsep_numNodes n _ _ _ hsep
      have hlist : toList n = toList left ++ [val] ++ toList right := by
        simpa using bsepB n _ _ _ hsep
      have hstep : end_go (fuel + 1) path n =
          end_go fuel (⟨.Right, val, left⟩ :: path) right := by
        simp [end_go, hsep]
      rw [hstep]
      obtain ⟨news2, heq, e1, e2, e3⟩ :=
        ih (⟨.Right, val, left⟩ :: path) right (by omega) hr
      refine ⟨news2 ++ [⟨.Right, val, left⟩], ?_, ?_, ?_, ?_⟩
      · rw [heq]; simp
      · intro s hs
        rcases List.mem_append.mp hs with hs | hs
        · exact e1 s hs
        · simp at hs
          rw [hs]; exact hl
      · simp only [List.append_assoc, List.singleton_append]
        rw [e2]
        simp [pathBefore_right, hlist, List.append_assoc]
      · simp only [List.append_assoc, List.singleton_append]
        rw [e3]
        simp [pathAfter_right]

theorem new_go_spec : ∀ (m : Nat) (root : BitRangeNode), sizeOk root = true →
    toList (new_go m root) = toList root ++ List.replicate m false ∧
      sizeOk (new_go m root) = true := by
  intro m
  induction m with
  | zero => intro root h; simp [new_go, h]
  | succ m ih =>
    intro root hsz
    obtain ⟨news, heq, e1, e2, e3⟩ :=
      end_go_spec (numNodes root + 1) [] root (by omega) hsz
    have hz : end_zipper root = ⟨news ++ [], .Empty⟩ := heq
    have hpath : (end_zipper root).path = news := by rw [hz]; simp
    have hstep : new_go (m + 1) root =
        new_go m (bzip (bsplay ⟨(end_zipper root).path,
          BitRangeNode.combine (.Branch false .Empty .Empty)⟩)) := rfl
    have hfoc : sizeOk (BitRangeNode.combine
        (.Branch false .Empty .Empty)) = true := rfl
    have e2' : pathBefore toList news = toList root := by
      simpa [pathBefore_nil] using e2
    have e3' : pathAfter toList news = [] := by
      simpa [pathAfter_nil] using e3
    have hpO : pathOk (fun mm => sizeOk mm = true) (end_zipper root).path := by
      rw [hpath]
      exact e1
    have hone : toList (bzip (bsplay ⟨(end_zipper root).path,
        BitRangeNode.combine (.Branch false .Empty .Empty)⟩)) =
        toList root ++ [false] := by
      rw [toList_bzip_bsplay, toList_bzip]
      simp only [hpath]
      rw [e2', e3']
      simp [bcombB, toList]
    have honeP : sizeOk (bzip (bsplay ⟨(end_zipper root).path,
        BitRangeNode.combine (.Branch false .Empty .Empty)⟩)) = true := by
      obtain ⟨q1, q2⟩ := bsplay_P ⟨(end_zipper root).path,
        BitRangeNode.combine (.Branch false .Empty .Empty)⟩ hfoc hpO
      exact bzip_sizeOk _ q1 q2
    rw [hstep]
    obtain ⟨r1, r2⟩ := ih _ honeP
    refine ⟨?_, r2⟩
    rw [r1, hone]
    simp [List.replicate_succ, List.append_assoc]

theorem new_spec (n : Int) :
    toList (BitRange.new n).root = List.replicate n.toNat false ∧
      sizeOk (BitRange.new n).root = true := by
  have := new_go_spec n.toNat .Empty rfl
  simpa [BitRange.new, toList] using this

/-! ## Characterisation of `get` and `set` -/

theorem get_char (t : BitRangeNode) (i : Int) (hsz : sizeOk t = true) :
    ((BitRange.mk t).get i).1 =
      (if 0 ≤ i then (toList t)[i.toNat]? else none) ∧
    toList ((BitRange.mk t).get i).2.root = toList t ∧
    sizeOk ((BitRange.mk t).get i).2.root = true := by
  by_cases hin : 0 ≤ i ∧ i < (numNodes t : Int)
  · obtain ⟨news, val, l, r, heq, e1, e2, e3, e4, e5, e6⟩ :=
      find_index_go_in (numNodes t + 1) i [] t (by omega) hsz hin.1 hin.2
    have hfi : find_index t i = ⟨news ++ [], BitRangeNode.combine (.Branch val l r)⟩ := heq
    have hval : (toList t)[i.toNat]? = some val := by
      apply take_push
      have e4' := e4
      have e5' := e5
      simp only [pathBefore_nil, List.nil_append] at e4' e5'
      rw [← e4', ← e5']
    constructor
    · simp only [BitRange.get, hfi, BitRangeNode.combine]
      rw [if_pos hin.1, hval]
    · have hfocus : sizeOk (BitRangeNode.combine (.Branch val l r)) = true :=
        bPB _ _ _ e1 e2

      have hlen : i.toNat < (toList t).length := by
        rw [length_toList]
        omega
      constructor
      · simp only [BitRange.get, hfi]
        rw [toList_bzip_bsplay, toList_bzip]
        simp only [List.append_nil]
        have : pathBefore toList news ++
            (toList l ++ val :: toList r) ++ pathAfter toList news = toList t := by
          have e4' := e4
          have e6' := e6
          simp only [pathBefore_nil, List.nil_append, pathAfter_nil,
            List.append_nil] at e4' e5 e6'
          calc pathBefore toList news ++ (toList l ++ val :: toList r) ++
                pathAfter toList news
              = (pathBefore toList news ++ toList l) ++ [val] ++
                (toList r ++ pathAfter toList news) := by
                simp [List.append_assoc]
            _ = (toList t).take i.toNat ++ [val] ++ (toList t).drop (i.toNat + 1) := by
                rw [e4', e6']
            _ = (toList t).take (i.toNat + 1) ++ (toList t).drop (i.toNat + 1) := by
                rw [← e5, e4']
            _ = toList t := List.take_append_drop _ _
        simpa [bcombB] using this
      · simp only [BitRange.get, hfi]
        obtain ⟨q1, q2⟩ := bsplay_P ⟨news ++ [], BitRangeNode.combine (.Branch val l r)⟩
          (by simpa using hfocus) (by simpa using e3)
        exact bzip_sizeOk _ q1 q2
  · have hout : i < 0 ∨ (numNodes t : Int) ≤ i := by omega
    obtain ⟨news, heq, e3, e4⟩ :=
      find_index_go_out (numNodes t + 1) i [] t (by omega) hsz hout
    have hfi : find_index t i = ⟨news ++ [], BitRangeNode.Empty⟩ := heq
    refine ⟨?_, ?_, ?_⟩
    · simp only [BitRange.get, hfi]
      rcases hout with hout | hout
      · rw [if_neg (by omega)]
      · rw [if_pos (by omega)]
        have : (toList t).length ≤ i.toNat := by
          rw [length_toList]
          omega
        rw [List.getElem?_eq_none this]
    · simp only [BitRange.get, hfi]
      rw [toList_bzip_bsplay, toList_bzip]
      simp only [List.append_nil, pathBefore_nil, List.nil_append, pathAfter_nil,
        List.append_nil] at e4 ⊢
      simpa [toList] using e4
    · simp only [BitRange.get, hfi]
      obtain ⟨q1, q2⟩ := bsplay_P ⟨news ++ [], BitRangeNode.Empty⟩ rfl (by simpa using e3)
      exact bzip_sizeOk _ q1 q2

theorem set_char (t : BitRangeNode) (i : Int) (v : Bool) (hsz : sizeOk t = true) :
    toList ((BitRange.mk t).set i v).root =
      (if 0 ≤ i then (toList t).set i.toNat v else toList t) ∧
    sizeOk ((BitRange.mk t).set i v).root = true := by
  by_cases hin : 0 ≤ i ∧ i < (numNodes t : Int)
  · obtain ⟨news, val, l, r, heq, e1, e2, e3, e4, e5, e6⟩ :=
      find_index_go_in (numNodes t + 1) i [] t (by omega) hsz hin.1 hin.2
    have hfi : find_index t i = ⟨news ++ [], BitRangeNode.combine (.Branch val l r)⟩ := heq
    have hcomb : BitRangeNode.combine (TreeF.Branch val l r) =
        .Branch val (get_size l + get_size r + 1) false l r := rfl
    have hset : (BitRange.mk t).set i v =
        ⟨bzip (bsplay ⟨news ++ [], BitRangeNode.combine (.Branch v l r)⟩)⟩ := by
      simp only [BitRange.set, hfi, hcomb]
      rfl
    have hlen : i.toNat < (toList t).length := by
      rw [length_toList]
      omega
    simp only [pathBefore_nil, List.nil_append, pathAfter_nil, List.append_nil]
      at e4 e5 e6
    constructor
    · rw [hset]
      simp only
      rw [toList_bzip_bsplay, toList_bzip]
      simp only [List.append_nil]
      rw [if_pos hin.1]
      have hsetList : (toList t).set i.toNat v =
          (toList t).take i.toNat ++ v :: (toList t).drop (i.toNat + 1) := by
        rw [List.set_eq_take_append_cons_drop, if_pos hlen]
      rw [hsetList, ← e4, bcombB]
      simp [List.append_assoc, e6]
    · rw [hset]
      simp only
      obtain ⟨q1, q2⟩ := bsplay_P ⟨news ++ [], BitRangeNode.combine (.Branch v l r)⟩
        (by simpa using bPB v l r e1 e2) (by simpa using e3)
      exact bzip_sizeOk _ q1 q2
  · have hout : i < 0 ∨ (numNodes t : Int) ≤ i := by omega
    obtain ⟨news, heq, e3, e4⟩ :=
      find_index_go_out (numNodes t + 1) i [] t (by omega) hsz hout
    have hfi : find_index t i = ⟨news ++ [], BitRangeNode.Empty⟩ := heq
    have hset : (BitRange.mk t).set i v =
        ⟨bzip (bsplay ⟨news ++ [], BitRangeNode.Empty⟩)⟩ := by
      simp only [BitRange.set, hfi]
    have hnoset : (if 0 ≤ i then (toList t).set i.toNat v else toList t) = toList t := by
      by_cases h0 : 0 ≤ i
      · rw [if_pos h0]
        apply List.set_eq_of_length_le
        rw [length_toList]
        omega
      · rw [if_neg h0]
    constructor
    · rw [hset, hnoset]
      simp only
      rw [toList_bzip_bsplay, toList_bzip]
      simp only [pathBefore_nil, List.nil_append, pathAfter_nil, List.append_nil]
        at e4 ⊢
      simpa [toList] using e4
    · rw [hset]
      simp only
      obtain ⟨q1, q2⟩ := bsplay_P ⟨news ++ [], BitRangeNode.Empty⟩ rfl (by simpa using e3)
      exact bzip_sizeOk _ q1 q2

/-! ## Size preservation through `isolate_interval` and reachability -/

theorem left_zipper_P (z : TreeZipper Bool BitRangeNode) (hn : sizeOk z.here = true)
    (hp : pathOk (fun m => sizeOk m = true) z.path) :
    sizeOk (left_zipper BitRangeNode.separate BitRangeNode.combine z).here = true ∧
    pathOk (fun m => sizeOk m = true)
      (left_zipper BitRangeNode.separate BitRangeNode.combine z).path := by
  rcases h : BitRangeNode.separate z.here with _ | ⟨v, l, r⟩
  · simp only [left_zipper, h]
    exact ⟨rfl, hp⟩
  · obtain ⟨hl, hr⟩ := bsep_sizeOk _ _ _ _ h hn
    simp only [left_zipper, h]
    refine ⟨hl, ?_⟩
    intro s hs
    rcases List.mem_cons.mp hs with hs | hs
    · rw [hs]; exact hr
    · exact hp s hs

theorem right_zipper_P (z : TreeZipper Bool BitRangeNode) (hn : sizeOk z.here = true)
    (hp : pathOk (fun m => sizeOk m = true) z.path) :
    sizeOk (right_zipper BitRangeNode.separate BitRangeNode.combine z).here = true ∧
    pathOk (fun m => sizeOk m = true)
      (right_zipper BitRangeNode.separate BitRangeNode.combine z).path := by
  rcases h : BitRangeNode.separate z.here with _ | ⟨v, l, r⟩
  · simp only [right_zipper, h]
    exact ⟨rfl, hp⟩
  · obtain ⟨hl, hr⟩ := bsep_sizeOk _ _ _ _ h hn
    simp only [right_zipper, h]
    refine ⟨hr, ?_⟩
    intro s hs
    rcases List.mem_cons.mp hs with hs | hs
    · rw [hs]; exact hl
    · exact hp s hs

theorem rotate_zipper_P (z : TreeZipper Bool BitRangeNode) (hn : sizeOk z.here = true)
    (hp : pathOk (fun m => sizeOk m = true) z.path) :
    sizeOk (rotate_zipper BitRangeNode.separate BitRangeNode.combine z).here = true ∧
    pathOk (fun m => sizeOk m = true)
      (rotate_zipper BitRangeNode.separate BitRangeNode.combine z).path := by
  rcases h : BitRangeNode.separate z.here with _ | ⟨v, l, r⟩
  · simp only [rotate_zipper, h]
    exact ⟨rfl, hp⟩
  · obtain ⟨hl, hr⟩ := bsep_sizeOk _ _ _ _ h hn
    obtain ⟨path, here⟩ := z
    match path with
    | [] =>
      simp only [rotate_zipper, h]
      exact ⟨bPB _ _ _ hl hr, hp⟩
    | ⟨.Left, pv, sib⟩ :: rest =>
      have hsib : sizeOk sib = true := hp _ (List.mem_cons_self _ _)
      have hrest : pathOk (fun m => sizeOk m = true) rest := fun s hs => hp s (by simp [hs])
      simp only [rotate_zipper, h]
      exact ⟨bPB _ _ _ hl (bPB _ _ _ hr hsib), hrest⟩
    | ⟨.Right, pv, sib⟩ :: rest =>
      have hsib : sizeOk sib = true := hp _ (List.mem_cons_self _ _)
      have hrest : pathOk (fun m => sizeOk m = true) rest := fun s hs => hp s (by simp [hs])
      simp only [rotate_zipper, h]
      exact ⟨bPB _ _ _ (bPB _ _ _ hsib hl) hr, hrest⟩

theorem find_index_P (root : BitRangeNode) (idx : Int) (h : sizeOk root = true) :
    sizeOk (find_index root idx).here = true ∧
    pathOk (fun m => sizeOk m = true) (find_index root idx).path :=
  find_index_go_P (numNodes root + 1) idx [] root h (by intro s hs; simp at hs)

theorem bzip_bsplay_P (z : TreeZipper Bool BitRangeNode) (hn : sizeOk z.here = true)
    (hp : pathOk (fun m => sizeOk m = true) z.path) :
    sizeOk (bzip (bsplay z)) = true := by
  obtain ⟨q1, q2⟩ := bsplay_P z hn hp
  exact bzip_sizeOk _ q1 q2

theorem isolate_P (root : BitRangeNode) (i j : Int) (h : sizeOk root = true) :
    sizeOk (isolate_interval root i j).here = true ∧
    pathOk (fun m => sizeOk m = true) (isolate_interval root i j).path := by
  unfold isolate_interval
  by_cases h1 : i ≤ 0
  · simp only [if_pos h1]
    by_cases h2 : j ≥ get_size root
    · simp only [if_pos h2]
      exact ⟨h, by intro s hs; simp [root_zipper] at hs⟩
    · simp only [if_neg h2]
      obtain ⟨q1, q2⟩ := find_index_P root j h
      obtain ⟨q3, q4⟩ := bsplay_P _ q1 q2
      exact left_zipper_P _ q3 q4
  · simp only [if_neg h1]
    by_cases h2 : j ≥ get_size root
    · simp only [if_pos h2]
      obtain ⟨q1, q2⟩ := find_index_P root (i - 1) h
      obtain ⟨q3, q4⟩ := bsplay_P _ q1 q2
      exact right_zipper_P _ q3 q4
    · simp only [if_neg h2]
      obtain ⟨q1, q2⟩ := find_index_P root i h
      have hr1 : sizeOk (bzip (bsplay (find_index root i))) = true :=
        bzip_bsplay_P _ q1 q2
      obtain ⟨q3, q4⟩ := find_index_P _ (i - 1) hr1
      have hr2 : sizeOk (bzip (bsplay (find_index
          (bzip (bsplay (find_index root i))) (i - 1)))) = true :=
        bzip_bsplay_P _ q3 q4
      obtain ⟨q5, q6⟩ := find_index_P _ j hr2
      have hr3 : sizeOk (bzip (bsplay (find_index (bzip (bsplay (find_index
          (bzip (bsplay (find_index root i))) (i - 1)))) j))) = true :=
        bzip_bsplay_P _ q5 q6
      obtain ⟨q7, q8⟩ := find_index_P _ (i - 1) hr3
      obtain ⟨q9, q10⟩ := right_zipper_P _ q7 q8
      by_cases hbr : BitRangeNode.is_branch (right_zipper BitRangeNode.separate
          BitRangeNode.combine (find_index (bzip (bsplay (find_index (bzip (bsplay
          (find_index (bzip (bsplay (find_index root i))) (i - 1)))) j))) (i - 1))).here
      · simp only [hbr, if_true]
        exact ⟨q9, q10⟩
      · simp only [hbr, Bool.false_eq_true, if_false]
        obtain ⟨q11, q12⟩ := parent_zipper_P BitRangeNode.combine
          (fun m => sizeOk m = true) bPB _ q9 q10
        obtain ⟨q13, q14⟩ := rotate_zipper_P _ q11 q12
        exact right_zipper_P _ q13 q14

theorem reverse_any_sizeOk (root : BitRangeNode) (i j : Int) (h : sizeOk root = true) :
    sizeOk ((BitRange.mk root).reverse_range i j).root = true := by
  obtain ⟨q1, q2⟩ := isolate_P root i j h
  simp only [BitRange.reverse_range]
  apply bzip_sizeOk
  · rw [sizeOk_reversed]
    exact q1
  · exact q2

theorem reachable_sizeOk {S : BitRange} (h : Reachable S) : sizeOk S.root = true := by
  induction h with
  | new n => exact (new_spec n).2
  | @set b i v _ ih =>
    obtain ⟨root⟩ := b
    exact (set_char root i v ih).2
  | @get b i _ ih =>
    obtain ⟨root⟩ := b
    exact (get_char root i ih).2.2
  | @reverse b i j _ ih =>
    obtain ⟨root⟩ := b
    exact reverse_any_sizeOk root i j ih

/-! ## Shape of the tree after splaying a found position to the root -/

theorem bzip_nil (x : BitRangeNode) : bzip ⟨[], x⟩ = x := rfl

theorem bsplay_go_eq (z : TreeZipper Bool BitRangeNode) (hz : z.path ≠ [])
    (hb : BitRangeNode.is_branch z.here = true) :
    bsplay z = splay_go BitRangeNode.separate BitRangeNode.combine z.path.length z := by
  unfold bsplay splay
  have h1 : z.path.isEmpty = false := by
    cases hp : z.path with
    | nil => exact absurd hp hz
    | cons a b => rfl
  simp [h1, hb]

theorem splay_find_shape (t : BitRangeNode) (p : Int) (hsz : sizeOk t = true)
    (h0 : 0 ≤ p) (hlt : p < (numNodes t : Int)) :
    ∃ T val FLn FRn, bsplay (find_index t p) = ⟨[], T⟩ ∧
      BitRangeNode.separate T = .Branch val FLn FRn ∧
      toList FLn = (toList t).take p.toNat ∧
      toList FLn ++ [val] = (toList t).take (p.toNat + 1) ∧
      toList FRn = (toList t).drop (p.toNat + 1) ∧
      sizeOk T = true ∧ sizeOk FLn = true ∧ sizeOk FRn = true := by
  obtain ⟨news, val, l, r, heq, e1, e2, e3, e4, e5, e6⟩ :=
    find_index_go_in (numNodes t + 1) p [] t (by omega) hsz h0 hlt
  simp only [pathBefore_nil, List.nil_append, pathAfter_nil, List.append_nil]
    at e4 e5 e6
  have hfi : find_index t p = ⟨news ++ [], BitRangeNode.combine (.Branch val l r)⟩ := heq
  obtain ⟨T, FL, FR, q1, q2, q3, q4, q5, q6, q7⟩ :=
    bsplay_root ⟨news ++ [], BitRangeNode.combine (.Branch val l r)⟩ val l r
      (bsep_comb _ _ _) (bPB _ _ _ e1 e2) (by simpa using e3)
  refine ⟨T, val, FL, FR, by rw [hfi]; exact q1, q2, ?_, ?_, ?_, q5, q6, q7⟩
  · rw [q3]
    simpa using e4
  · rw [q3]
    have := e5
    simpa [List.append_assoc] using this
  · rw [q4]
    simpa using e6

theorem find_zip_toList (rem : Int) (path : List (TreeZipperStep Bool BitRangeNode))
    (t : BitRangeNode) (hsz : sizeOk t = true) :
    toList (bzip (find_index_at rem path t)) =
      pathBefore toList path ++ toList t ++ pathAfter toList path := by
  by_cases hin : 0 ≤ rem ∧ rem < (numNodes t : Int)
  · obtain ⟨news, val, l, r, heq, e1, e2, e3, e4, e5, e6⟩ :=
      find_index_go_in (numNodes t + 1) rem path t (by omega) hsz hin.1 hin.2
    have : find_index_at rem path t = ⟨news ++ path,
        BitRangeNode.combine (.Branch val l r)⟩ := heq
    rw [this, toList_bzip]
    have hgoal : pathBefore toList (news ++ path) ++
        (toList l ++ val :: toList r) ++ pathAfter toList (news ++ path) =
        pathBefore toList path ++ toList t ++ pathAfter toList path := by
      calc pathBefore toList (news ++ path) ++ (toList l ++ val :: toList r) ++
            pathAfter toList (news ++ path)
          = (pathBefore toList (news ++ path) ++ toList l ++ [val]) ++
            (toList r ++ pathAfter toList (news ++ path)) := by
            simp [List.append_assoc]
        _ = (pathBefore toList path ++ (toList t).take (rem.toNat + 1)) ++
            ((toList t).drop (rem.toNat + 1) ++ pathAfter toList path) := by
            rw [e5, e6]
        _ = pathBefore toList path ++ toList t ++ pathAfter toList path := by
            simp only [List.append_assoc]
            rw [← List.append_assoc ((toList t).take (rem.toNat + 1)),
              List.take_append_drop]
    simpa [bcombB] using hgoal
  · have hout : rem < 0 ∨ (numNodes t : Int) ≤ rem := by omega
    obtain ⟨news, heq, e3, e4⟩ :=
      find_index_go_out (numNodes t + 1) rem path t (by omega) hsz hout
    have : find_index_at rem path t = ⟨news ++ path, BitRangeNode.Empty⟩ := heq
    rw [this, toList_bzip]
    simpa [toList] using e4

/-! ## Finding the last position descends right and meets an empty right child -/

theorem find_last_go : ∀ (fuel : Nat) (path : List (TreeZipperStep Bool BitRangeNode))
    (u : BitRangeNode), numNodes u < fuel → sizeOk u = true → 1 ≤ numNodes u →
    ∃ rights xv Lx, find_index_go fuel ((numNodes u : Int) - 1) path u =
      ⟨rights ++ path, BitRangeNode.combine (.Branch xv Lx .Empty)⟩ ∧
      ∀ s ∈ rights, s.direction = .Right := by
  intro fuel
  induction fuel with
  | zero => intro path u h; omega
  | succ fuel ih =>
    intro path u hfuel hsz hpos
    rcases hsep : BitRangeNode.separate u with _ | ⟨val, left, right⟩
    · rw [bsepE u hsep] at hpos
      simp [numNodes] at hpos
    · obtain ⟨hl, hr⟩ := bsep_sizeOk u _ _ _ hsep hsz
      have hnum : numNodes u = numNodes left + numNodes right + 1 :=
        bsep_numNodes u _ _ _ hsep
      have hls : get_size left = (numNodes left : Int) := get_size_eq hl
      by_cases hre : 1 ≤ numNodes right
      · have hc : get_size left < (numNodes u : Int) - 1 := by rw [hls]; omega
        have hrem : (numNodes u : Int) - 1 - get_size left - 1 =
            (numNodes right : Int) - 1 := by rw [hls]; omega
        have hstep : find_index_go (fuel + 1) ((numNodes u : Int) - 1) path u =
            find_index_go fuel ((numNodes right : Int) - 1)
              (⟨.Right, val, left⟩ :: path) right := by
          simp only [find_index_go, hsep, if_pos hc]
          rw [hrem]
        rw [hstep]
        obtain ⟨rights2, xv, Lx, heq, hdir⟩ :=
          ih (⟨.Right, val, left⟩ :: path) right (by omega) hr hre
        refine ⟨rights2 ++ [⟨.Right, val, left⟩], xv, Lx, ?_, ?_⟩
        · rw [heq]
          simp
        · intro s hs
          rcases List.mem_append.mp hs with hs | hs
          · exact hdir s hs
          · simp at hs
            rw [hs]
      · have hre0 : numNodes right = 0 := by omega
        have hright : right = .Empty := numNodes_zero hre0
        have hc : get_size left = (numNodes u : Int) - 1 := by rw [hls]; omega
        refine ⟨[], val, left, ?_, by intro s hs; simp at hs⟩
        subst hright
        simp only [find_index_go, hsep, if_neg (by omega : ¬ get_size left <
          (numNodes u : Int) - 1), if_pos hc]
        simp

/-! ## SL1: splaying a node with empty right child up an all-right path -/

theorem sl1_nil (fuel : Nat) (pv : Bool) (S here : BitRangeNode) (x : Bool)
    (lx : BitRangeNode) (hsep : BitRangeNode.separate here = .Branch x lx .Empty)
    (hfuel : 1 ≤ fuel) :
    ∃ FL, splay_go BitRangeNode.separate BitRangeNode.combine fuel
        ⟨[⟨.Left, pv, S⟩], here⟩ =
      ⟨[], BitRangeNode.combine (.Branch x FL
        (BitRangeNode.combine (.Branch pv .Empty S)))⟩ := by
  cases fuel with
  | zero => omega
  | succ fuel =>
    have hstep : splay_go BitRangeNode.separate BitRangeNode.combine (fuel + 1)
        ⟨[⟨.Left, pv, S⟩], here⟩ =
        splay_go BitRangeNode.separate BitRangeNode.combine fuel
          (splay_step BitRangeNode.separate BitRangeNode.combine
            ⟨[⟨.Left, pv, S⟩], here⟩) := rfl
    rw [hstep]
    have hzig : splay_step BitRangeNode.separate BitRangeNode.combine
        ⟨[⟨.Left, pv, S⟩], here⟩ =
        ⟨[], BitRangeNode.combine (.Branch x lx
          (BitRangeNode.combine (.Branch pv .Empty S)))⟩ := by
      simp [splay_step, hsep]
    rw [hzig]
    refine ⟨lx, ?_⟩
    cases fuel <;> rfl

theorem sl1_go : ∀ (k : Nat) (rights : List (TreeZipperStep Bool BitRangeNode)),
    rights.length ≤ k →
    ∀ (fuel : Nat) (pv : Bool) (S : BitRangeNode) (here : BitRangeNode)
      (x : Bool) (lx : BitRangeNode),
    (∀ s ∈ rights, s.direction = .Right) →
    BitRangeNode.separate here = .Branch x lx .Empty →
    rights.length + 1 ≤ fuel →
    ∃ FL, splay_go BitRangeNode.separate BitRangeNode.combine fuel
        ⟨rights ++ [⟨.Left, pv, S⟩], here⟩ =
      ⟨[], BitRangeNode.combine (.Branch x FL
        (BitRangeNode.combine (.Branch pv .Empty S)))⟩ := by
  intro k
  induction k with
  | zero =>
    intro rights hk fuel pv S here x lx hdir hsep hfuel
    have : rights = [] := List.length_eq_zero.mp (by omega)
    subst this
    simp only [List.nil_append]
    exact sl1_nil fuel pv S here x lx hsep (by simpa using hfuel)
  | succ k ihk =>
    intro rights hk fuel pv S here x lx hdir hsep hfuel
    match rights with
    | [] =>
      simp only [List.nil_append]
      exact sl1_nil fuel pv S here x lx hsep (by simpa using hfuel)
    | [⟨d, cv, cs⟩] =>
      have hd : d = .Right := hdir ⟨d, cv, cs⟩ (by simp)
      subst hd
      simp only [List.cons_append, List.nil_append]
      cases fuel with
      | zero => simp at hfuel
      | succ fuel =>
        have hstep : splay_go BitRangeNode.separate BitRangeNode.combine (fuel + 1)
            ⟨[⟨.Right, cv, cs⟩, ⟨.Left, pv, S⟩], here⟩ =
            splay_go BitRangeNode.separate BitRangeNode.combine fuel
              (splay_step BitRangeNode.separate BitRangeNode.combine
                ⟨[⟨.Right, cv, cs⟩, ⟨.Left, pv, S⟩], here⟩) := rfl
        rw [hstep]
        have hzz : splay_step BitRangeNode.separate BitRangeNode.combine
            ⟨[⟨.Right, cv, cs⟩, ⟨.Left, pv, S⟩], here⟩ =
            ⟨[], BitRangeNode.combine (.Branch x
              (BitRangeNode.combine (.Branch cv cs lx))
              (BitRangeNode.combine (.Branch pv .Empty S)))⟩ := by
          simp [splay_step, hsep]
        rw [hzz]
        refine ⟨BitRangeNode.combine (.Branch cv cs lx), ?_⟩
        cases fuel <;> rfl
    | ⟨d1, c1v, c1s⟩ :: ⟨d2, c2v, c2s⟩ :: rest2 =>
      have hd1 : d1 = .Right := hdir ⟨d1, c1v, c1s⟩ (by simp)
      have hd2 : d2 = .Right := hdir ⟨d2, c2v, c2s⟩ (by simp)
      subst hd1
      subst hd2
      simp only [List.cons_append]
      cases fuel with
      | zero => simp at hfuel
      | succ fuel =>
        have hstep : splay_go BitRangeNode.separate BitRangeNode.combine (fuel + 1)
            ⟨⟨.Right, c1v, c1s⟩ :: ⟨.Right, c2v, c2s⟩ :: (rest2 ++ [⟨.Left, pv, S⟩]),
              here⟩ =
            splay_go BitRangeNode.separate BitRangeNode.combine fuel
              (splay_step BitRangeNode.separate BitRangeNode.combine
                ⟨⟨.Right, c1v, c1s⟩ :: ⟨.Right, c2v, c2s⟩ ::
                  (rest2 ++ [⟨.Left, pv, S⟩]), here⟩) := rfl
        rw [hstep]
        have hzz : splay_step BitRangeNode.separate BitRangeNode.combine
            ⟨⟨.Right, c1v, c1s⟩ :: ⟨.Right, c2v, c2s⟩ :: (rest2 ++ [⟨.Left, pv, S⟩]),
              here⟩ =
            ⟨rest2 ++ [⟨.Left, pv, S⟩], BitRangeNode.combine (.Branch x
              (BitRangeNode.combine (.Branch c1v
                (BitRangeNode.combine (.Branch c2v c2s c1s)) lx)) .Empty)⟩ := by
          simp [splay_step, hsep]
        rw [hzz]
        refine ihk rest2 (by simp at hk; omega) fuel pv S _ x
          (BitRangeNode.combine (.Branch c1v
            (BitRangeNode.combine (.Branch c2v c2s c1s)) lx))
          (fun s hs => hdir s (by simp [hs])) ?_ (by simp at hfuel ⊢; omega)
        exact bsep_comb _ _ _

/-! ## The tree shape after the first two splays of the interior case -/

theorem comb_is_branch (v : Bool) (l r : BitRangeNode) :
    BitRangeNode.is_branch (BitRangeNode.combine (.Branch v l r)) = true := rfl

theorem comb_sizeOk_parts (v : Bool) (l r : BitRangeNode)
    (h : sizeOk (BitRangeNode.combine (.Branch v l r)) = true) :
    sizeOk l = true ∧ sizeOk r = true :=
  bsep_sizeOk _ v l r (bsep_comb v l r) h

theorem caseD_r2 (t : BitRangeNode) (i : Int) (hsz : sizeOk t = true)
    (h1 : 1 ≤ i) (hlt : i < (numNodes t : Int)) :
    ∃ xv iv FL R1,
      bzip (bsplay (find_index (bzip (bsplay (find_index t i))) (i - 1))) =
        BitRangeNode.combine (.Branch xv FL
          (BitRangeNode.combine (.Branch iv .Empty R1))) ∧
      toList FL ++ [xv] = (toList t).take i.toNat ∧
      (toList t).take i.toNat ++ [iv] = (toList t).take (i.toNat + 1) ∧
      toList R1 = (toList t).drop (i.toNat + 1) ∧
      sizeOk (BitRangeNode.combine (.Branch xv FL
        (BitRangeNode.combine (.Branch iv .Empty R1)))) = true := by
  obtain ⟨T1, iv, L1, R1, q1, q2, q3, q4, q5, q6, q7, q8⟩ :=
    splay_find_shape t i hsz (by omega) hlt
  have hr1 : bzip (bsplay (find_index t i)) = T1 := by rw [q1]; rfl
  have hlenL1 : numNodes L1 = i.toNat := by
    rw [← length_toList, q3]
    rw [List.length_take, length_toList]
    omega
  have hcast : (numNodes L1 : Int) = i := by rw [hlenL1]; omega
  have hgsL1 : get_size L1 = (numNodes L1 : Int) := get_size_eq q7
  have hfind1 : find_index T1 (i - 1) =
      find_index_at (i - 1) [⟨.Left, iv, R1⟩] L1 := by
    show find_index_at (i - 1) [] T1 = _
    exact find_index_at_left (i - 1) [] T1 iv L1 R1 q2 (by rw [hgsL1, hcast]; omega)
  obtain ⟨rights, xv, Lx, hlast, hdir⟩ :=
    find_last_go (numNodes L1 + 1) [⟨.Left, iv, R1⟩] L1 (by omega) q7 (by omega)
  have hfind2 : find_index_at (i - 1) [⟨.Left, iv, R1⟩] L1 =
      ⟨rights ++ [⟨.Left, iv, R1⟩],
        BitRangeNode.combine (.Branch xv Lx .Empty)⟩ := by
    unfold find_index_at
    rw [show i - 1 = (numNodes L1 : Int) - 1 by omega]
    exact hlast
  have hseedOk : pathOk (fun m => sizeOk m = true) [⟨.Left, iv, R1⟩] := by
    intro s hs
    simp at hs
    rw [hs]
    exact q8
  obtain ⟨hfocOk, hpathOk⟩ := by
    have := find_index_go_P (numNodes L1 + 1) (i - 1) [⟨.Left, iv, R1⟩] L1 q7 hseedOk
    rw [show find_index_go (numNodes L1 + 1) (i - 1) [⟨.Left, iv, R1⟩] L1 =
      find_index_at (i - 1) [⟨.Left, iv, R1⟩] L1 from
        find_index_at_eq _ _ _ _ (by omega), hfind2] at this
    exact this
  obtain ⟨FL, hsplay⟩ :=
    sl1_go rights.length rights (le_refl _) (rights.length + 1)
      iv R1 (BitRangeNode.combine (.Branch xv Lx .Empty)) xv Lx hdir
      (bsep_comb _ _ _) (by omega)
  have hbsplay : bsplay ⟨rights ++ [⟨.Left, iv, R1⟩],
      BitRangeNode.combine (.Branch xv Lx .Empty)⟩ =
      ⟨[], BitRangeNode.combine (.Branch xv FL
        (BitRangeNode.combine (.Branch iv .Empty R1)))⟩ := by
    rw [bsplay_go_eq _ (by simp) (comb_is_branch _ _ _)]
    simpa using hsplay
  have hr2 : bzip (bsplay (find_index (bzip (bsplay (find_index t i))) (i - 1))) =
      BitRangeNode.combine (.Branch xv FL
        (BitRangeNode.combine (.Branch iv .Empty R1))) := by
    rw [hr1, hfind1, hfind2, hbsplay]
    rfl
  have htoL : toList (BitRangeNode.combine (.Branch xv FL
      (BitRangeNode.combine (.Branch iv .Empty R1)))) =
      (toList t).take i.toNat ++ iv :: toList R1 := by
    have haux : toList (bzip (bsplay ⟨rights ++ [⟨.Left, iv, R1⟩],
        BitRangeNode.combine (.Branch xv Lx .Empty)⟩)) =
        toList (bzip (find_index_at (i - 1) [⟨.Left, iv, R1⟩] L1)) := by
      rw [hfind2]
      exact toList_bzip_bsplay _
    rw [hbsplay, bzip_nil] at haux
    rw [haux, find_zip_toList _ _ _ q7, q3]
    simp [pathBefore_left, pathBefore_nil, pathAfter_left, pathAfter_nil]
  have hWdec : toList (BitRangeNode.combine (.Branch xv FL
      (BitRangeNode.combine (.Branch iv .Empty R1)))) =
      toList FL ++ xv :: (iv :: toList R1) := by
    rw [bcombB, bcombB]
    simp [toList]
  have hcancel : toList FL ++ [xv] = (toList t).take i.toNat := by
    have h2 : (toList FL ++ [xv]) ++ (iv :: toList R1) =
        (toList t).take i.toNat ++ (iv :: toList R1) := by
      have h3 := hWdec.symm.trans htoL
      simpa [List.append_assoc] using h3
    exact List.append_cancel_right h2
  have hW_sizeOk : sizeOk (BitRangeNode.combine (.Branch xv FL
      (BitRangeNode.combine (.Branch iv .Empty R1)))) = true := by
    have := bzip_bsplay_P ⟨rights ++ [⟨.Left, iv, R1⟩],
      BitRangeNode.combine (.Branch xv Lx .Empty)⟩ hfocOk hpathOk
    rw [hbsplay, bzip_nil] at this
    exact this
  refine ⟨xv, iv, FL, R1, hr2, hcancel, ?_, q5, hW_sizeOk⟩
  rw [← q3]
  exact q4

/-! ## SL2: the third splay over the two fixed bottom path steps -/

theorem sl2_nil (fuel : Nat) (xv iv : Bool) (A here : BitRangeNode)
    (v : Bool) (fl fr : BitRangeNode)
    (hsep : BitRangeNode.separate here = .Branch v fl fr) (hfuel : 2 ≤ fuel) :
    splay_go BitRangeNode.separate BitRangeNode.combine fuel
        ⟨[⟨.Right, iv, .Empty⟩, ⟨.Right, xv, A⟩], here⟩ =
      ⟨[], BitRangeNode.combine (.Branch v (BitRangeNode.combine (.Branch iv
        (BitRangeNode.combine (.Branch xv A .Empty)) fl)) fr)⟩ := by
  cases fuel with
  | zero => omega
  | succ fuel =>
    have hzz : splay_step BitRangeNode.separate BitRangeNode.combine
        ⟨[⟨.Right, iv, .Empty⟩, ⟨.Right, xv, A⟩], here⟩ =
        ⟨[], BitRangeNode.combine (.Branch v (BitRangeNode.combine (.Branch iv
          (BitRangeNode.combine (.Branch xv A .Empty)) fl)) fr)⟩ := by
      simp [splay_step, hsep]
    show splay_go BitRangeNode.separate BitRangeNode.combine fuel
      (splay_step BitRangeNode.separate BitRangeNode.combine
        ⟨[⟨.Right, iv, .Empty⟩, ⟨.Right, xv, A⟩], here⟩) = _
    rw [hzz]
    cases fuel <;> rfl

theorem sl2_go : ∀ (k : Nat) (rest : List (TreeZipperStep Bool BitRangeNode)),
    rest.length ≤ k →
    ∀ (fuel : Nat) (xv iv : Bool) (A : BitRangeNode) (here : BitRangeNode)
      (v : Bool) (fl fr : BitRangeNode),
    BitRangeNode.separate here = .Branch v fl fr →
    rest.length + 2 ≤ fuel →
    ∃ W, splay_go BitRangeNode.separate BitRangeNode.combine fuel
        ⟨rest ++ [⟨.Right, iv, .Empty⟩, ⟨.Right, xv, A⟩], here⟩ = ⟨[], W⟩ ∧
      ((∃ fl2 fr2,
          W = BitRangeNode.combine (.Branch v (BitRangeNode.combine (.Branch iv
            (BitRangeNode.combine (.Branch xv A .Empty)) fl2)) fr2) ∧
          pathBefore toList [⟨.Right, iv, (.Empty : BitRangeNode)⟩, ⟨.Right, xv, A⟩] ++
              toList fl2 =
            pathBefore toList (rest ++ [⟨.Right, iv, .Empty⟩, ⟨.Right, xv, A⟩]) ++
              toList fl ∧
          toList fr2 = toList fr ++
            pathAfter toList (rest ++ [⟨.Right, iv, .Empty⟩, ⟨.Right, xv, A⟩])) ∨
       (∃ fl2 fr2 pv sib,
          W = BitRangeNode.combine (.Branch v (BitRangeNode.combine (.Branch xv A
            (BitRangeNode.combine (.Branch iv .Empty fl2))))
            (BitRangeNode.combine (.Branch pv fr2 sib))) ∧
          pathBefore toList [⟨.Right, iv, (.Empty : BitRangeNode)⟩, ⟨.Right, xv, A⟩] ++
              toList fl2 =
            pathBefore toList (rest ++ [⟨.Right, iv, .Empty⟩, ⟨.Right, xv, A⟩]) ++
              toList fl ∧
          toList fr2 ++ pv :: toList sib = toList fr ++
            pathAfter toList (rest ++ [⟨.Right, iv, .Empty⟩, ⟨.Right, xv, A⟩])) ∨
       (∃ fl2 fr2 pv sib,
          W = BitRangeNode.combine (.Branch v (BitRangeNode.combine (.Branch xv A
            (BitRangeNode.combine (.Branch pv (BitRangeNode.combine
              (.Branch iv .Empty sib)) fl2)))) fr2) ∧
          pathBefore toList [⟨.Right, iv, (.Empty : BitRangeNode)⟩, ⟨.Right, xv, A⟩] ++
              toList sib ++ pv :: toList fl2 =
            pathBefore toList (rest ++ [⟨.Right, iv, .Empty⟩, ⟨.Right, xv, A⟩]) ++
              toList fl ∧
          toList fr2 = toList fr ++
            pathAfter toList (rest ++ [⟨.Right, iv, .Empty⟩, ⟨.Right, xv, A⟩]))) := by
  intro k
  induction k with
  | zero =>
    intro rest hk fuel xv iv A here v fl fr hsep hfuel
    have hrest : rest = [] := List.length_eq_zero.mp (by omega)
    subst hrest
    simp only [List.nil_append]
    exact ⟨_, sl2_nil fuel xv iv A here v fl fr hsep (by simpa using hfuel),
      Or.inl ⟨fl, fr, rfl, by simp, by simp [pathAfter_right, pathAfter_nil]⟩⟩
  | succ k ihk =>
    intro rest hk fuel xv iv A here v fl fr hsep hfuel
    match rest with
    | [] =>
      simp only [List.nil_append]
      exact ⟨_, sl2_nil fuel xv iv A here v fl fr hsep (by simpa using hfuel),
        Or.inl ⟨fl, fr, rfl, by simp, by simp [pathAfter_right, pathAfter_nil]⟩⟩
    | [⟨d, pv, sib⟩] =>
      cases fuel with
      | zero => simp at hfuel
      | succ fuel =>
        cases fuel with
        | zero => simp at hfuel
        | succ fuel =>
          simp only [List.cons_append, List.nil_append]
          cases d with
          | Left =>
            have hzz : splay_step BitRangeNode.separate BitRangeNode.combine
                ⟨⟨.Left, pv, sib⟩ :: [⟨.Right, iv, .Empty⟩, ⟨.Right, xv, A⟩], here⟩ =
                ⟨[⟨.Right, xv, A⟩], BitRangeNode.combine (.Branch v
                  (BitRangeNode.combine (.Branch iv .Empty fl))
                  (BitRangeNode.combine (.Branch pv fr sib)))⟩ := by
              simp [splay_step, hsep]
            have hzig : splay_step BitRangeNode.separate BitRangeNode.combine
                ⟨[⟨.Right, xv, A⟩], BitRangeNode.combine (.Branch v
                  (BitRangeNode.combine (.Branch iv .Empty fl))
                  (BitRangeNode.combine (.Branch pv fr sib)))⟩ =
                ⟨[], BitRangeNode.combine (.Branch v
                  (BitRangeNode.combine (.Branch xv A
                    (BitRangeNode.combine (.Branch iv .Empty fl))))
                  (BitRangeNode.combine (.Branch pv fr sib)))⟩ := by
              simp [splay_step, bsep_comb]
            refine ⟨_, ?_, Or.inr (Or.inl ⟨fl, fr, pv, sib, rfl, by
              simp [pathBefore_left], by
              simp [pathAfter_left, pathAfter_right, pathAfter_nil]⟩)⟩
            show splay_go BitRangeNode.separate BitRangeNode.combine (fuel + 1)
              (splay_step BitRangeNode.separate BitRangeNode.combine
                ⟨⟨.Left, pv, sib⟩ :: [⟨.Right, iv, .Empty⟩, ⟨.Right, xv, A⟩],
                  here⟩) = _
            rw [hzz]
            show splay_go BitRangeNode.separate BitRangeNode.combine fuel
              (splay_step BitRangeNode.separate BitRangeNode.combine
                ⟨[⟨.Right, xv, A⟩], _⟩) = _
            rw [hzig]
            cases fuel <;> rfl
          | Right =>
            have hzz : splay_step BitRangeNode.separate BitRangeNode.combine
                ⟨⟨.Right, pv, sib⟩ :: [⟨.Right, iv, .Empty⟩, ⟨.Right, xv, A⟩], here⟩ =
                ⟨[⟨.Right, xv, A⟩], BitRangeNode.combine (.Branch v
                  (BitRangeNode.combine (.Branch pv
                    (BitRangeNode.combine (.Branch iv .Empty sib)) fl)) fr)⟩ := by
              simp [splay_step, hsep]
            have hzig : splay_step BitRangeNode.separate BitRangeNode.combine
                ⟨[⟨.Right, xv, A⟩], BitRangeNode.combine (.Branch v
                  (BitRangeNode.combine (.Branch pv
                    (BitRangeNode.combine (.Branch iv .Empty sib)) fl)) fr)⟩ =
                ⟨[], BitRangeNode.combine (.Branch v
                  (BitRangeNode.combine (.Branch xv A
                    (BitRangeNode.combine (.Branch pv
                      (BitRangeNode.combine (.Branch iv .Empty sib)) fl)))) fr)⟩ := by
              simp [splay_step, bsep_comb]
            refine ⟨_, ?_, Or.inr (Or.inr ⟨fl, fr, pv, sib, rfl, by
              simp [pathBefore_right, List.append_assoc], by
              simp [pathAfter_right, pathAfter_nil]⟩)⟩
            show splay_go BitRangeNode.separate BitRangeNode.combine (fuel + 1)
              (splay_step BitRangeNode.separate BitRangeNode.combine
                ⟨⟨.Right, pv, sib⟩ :: [⟨.Right, iv, .Empty⟩, ⟨.Right, xv, A⟩],
                  here⟩) = _
            rw [hzz]
            show splay_go BitRangeNode.separate BitRangeNode.combine fuel
              (splay_step BitRangeNode.separate BitRangeNode.combine
                ⟨[⟨.Right, xv, A⟩], _⟩) = _
            rw [hzig]
            cases fuel <;> rfl
    | c1 :: c2 :: rest2 =>
      cases fuel with
      | zero => simp at hfuel
      | succ fuel =>
        simp only [List.cons_append]
        obtain ⟨fl2, fr2, hstep, hb, ha, _⟩ :=
          splay_step_two BitRangeNode.combine BitRangeNode.separate toList
            (fun _ => True) bcombB (fun _ _ _ _ _ => trivial) v fl fr c1 c2
            (rest2 ++ [⟨.Right, iv, .Empty⟩, ⟨.Right, xv, A⟩]) here hsep
        have hgo : splay_go BitRangeNode.separate BitRangeNode.combine (fuel + 1)
            ⟨c1 :: c2 :: (rest2 ++ [⟨.Right, iv, .Empty⟩, ⟨.Right, xv, A⟩]), here⟩ =
            splay_go BitRangeNode.separate BitRangeNode.combine fuel
              ⟨rest2 ++ [⟨.Right, iv, .Empty⟩, ⟨.Right, xv, A⟩],
                BitRangeNode.combine (.Branch v fl2 fr2)⟩ := by
          show splay_go BitRangeNode.separate BitRangeNode.combine fuel
            (splay_step BitRangeNode.separate BitRangeNode.combine
              ⟨c1 :: c2 :: (rest2 ++ [⟨.Right, iv, .Empty⟩, ⟨.Right, xv, A⟩]),
                here⟩) = _
          rw [hstep]
        rw [hgo]
        obtain ⟨W, hW, hcases⟩ := ihk rest2 (by simp at hk; omega) fuel xv iv A
          (BitRangeNode.combine (.Branch v fl2 fr2)) v fl2 fr2 (bsep_comb _ _ _)
          (by simp at hfuel ⊢; omega)
        refine ⟨W, hW, ?_⟩
        rcases hcases with ⟨g1, g2, w1, w2, w3⟩ | ⟨g1, g2, g3, g4, w1, w2, w3⟩ |
          ⟨g1, g2, g3, g4, w1, w2, w3⟩
        · exact Or.inl ⟨g1, g2, w1, w2.trans hb, w3.trans ha⟩
        · exact Or.inr (Or.inl ⟨g1, g2, g3, g4, w1, w2.trans hb, w3.trans ha⟩)
        · exact Or.inr (Or.inr ⟨g1, g2, g3, g4, w1, w2.trans hb, w3.trans ha⟩)

/-! ## The final descent of the interior case -/

theorem get_size_toList {X : BitRangeNode} (h : sizeOk X = true) :
    get_size X = ((toList X).length : Int) := by
  rw [get_size_eq h, length_toList]

theorem caseD_tail_direct (i j : Int) (full : List Bool) (vj xv : Bool)
    (A inner RT : BitRangeNode)
    (hAi : toList A ++ [xv] = full.take i.toNat)
    (hinner : full.take i.toNat ++ toList inner = full.take j.toNat)
    (hbr : BitRangeNode.is_branch inner = true)
    (hszA : sizeOk A = true) (hszInner : sizeOk inner = true)
    (hj : j.toNat ≤ full.length) (hij : i < j) (h1 : 1 ≤ i) (h0 : 0 ≤ j) :
    (let zipper := right_zipper BitRangeNode.separate BitRangeNode.combine
        (find_index (BitRangeNode.combine (.Branch vj (BitRangeNode.combine
          (.Branch xv A inner)) RT)) (i - 1));
     if BitRangeNode.is_branch zipper.here then zipper
     else right_zipper BitRangeNode.separate BitRangeNode.combine
       (rotate_zipper BitRangeNode.separate BitRangeNode.combine
         (parent_zipper BitRangeNode.combine zipper))) =
      ⟨[⟨.Right, xv, A⟩, ⟨.Left, vj, RT⟩], inner⟩ := by
  have hlenA : (toList A).length = i.toNat - 1 := by
    have := congrArg List.length hAi
    simp [List.length_take] at this
    omega
  have hgsA : get_size A = i - 1 := by
    rw [get_size_toList hszA, hlenA]
    omega
  have hszWL : sizeOk (BitRangeNode.combine (.Branch xv A inner)) = true :=
    bPB _ _ _ hszA hszInner
  have hlenWL : (toList (BitRangeNode.combine (.Branch xv A inner))).length = j.toNat := by
    rw [bcombB]
    have : toList A ++ xv :: toList inner = full.take j.toNat := by
      rw [← hinner, ← hAi]
      simp [List.append_assoc]
    rw [this, List.length_take]
    omega
  have hgsWL : get_size (BitRangeNode.combine (.Branch xv A inner)) = j := by
    rw [get_size_toList hszWL, hlenWL]
    omega
  have hf1 : find_index (BitRangeNode.combine (.Branch vj (BitRangeNode.combine
      (.Branch xv A inner)) RT)) (i - 1) =
      find_index_at (i - 1) [⟨.Left, vj, RT⟩]
        (BitRangeNode.combine (.Branch xv A inner)) := by
    show find_index_at (i - 1) [] _ = _
    exact find_index_at_left _ _ _ _ _ _ (bsep_comb _ _ _) (by rw [hgsWL]; omega)
  have hf2 : find_index_at (i - 1) [⟨.Left, vj, RT⟩]
      (BitRangeNode.combine (.Branch xv A inner)) =
      ⟨[⟨.Left, vj, RT⟩], BitRangeNode.combine (.Branch xv A inner)⟩ :=
    find_index_at_stop _ _ _ _ _ _ (bsep_comb _ _ _) (by rw [hgsA])
  have hrz : right_zipper BitRangeNode.separate BitRangeNode.combine
      ⟨[⟨.Left, vj, RT⟩], BitRangeNode.combine (.Branch xv A inner)⟩ =
      ⟨[⟨.Right, xv, A⟩, ⟨.Left, vj, RT⟩], inner⟩ := by
    simp [right_zipper, bsep_comb]
  simp only [hf1, hf2, hrz, hbr, if_true]

theorem caseD_tail_fallback (i j : Int) (full : List Bool) (vj xv iv : Bool)
    (A fl2 fr2 : BitRangeNode)
    (hAi : toList A ++ [xv] = full.take i.toNat)
    (hIv : full.take i.toNat ++ [iv] = full.take (i.toNat + 1))
    (hfl2 : full.take (i.toNat + 1) ++ toList fl2 = full.take j.toNat)
    (hszA : sizeOk A = true) (hszfl2 : sizeOk fl2 = true)
    (hj : j.toNat ≤ full.length) (hij : i < j) (h1 : 1 ≤ i) (h0 : 0 ≤ j) :
    (let zipper := right_zipper BitRangeNode.separate BitRangeNode.combine
        (find_index (BitRangeNode.combine (.Branch vj (BitRangeNode.combine
          (.Branch iv (BitRangeNode.combine (.Branch xv A .Empty)) fl2)) fr2))
          (i - 1));
     if BitRangeNode.is_branch zipper.here then zipper
     else right_zipper BitRangeNode.separate BitRangeNode.combine
       (rotate_zipper BitRangeNode.separate BitRangeNode.combine
         (parent_zipper BitRangeNode.combine zipper))) =
      ⟨[⟨.Right, xv, A⟩, ⟨.Left, vj, fr2⟩],
        BitRangeNode.combine (.Branch iv .Empty fl2)⟩ := by
  have hlenA : (toList A).length = i.toNat - 1 := by
    have := congrArg List.length hAi
    simp [List.length_take] at this
    omega
  have hgsA : get_size A = i - 1 := by
    rw [get_size_toList hszA, hlenA]
    omega
  have hTL : toList (BitRangeNode.combine (.Branch xv A .Empty)) =
      full.take i.toNat := by
    rw [bcombB]
    simpa [toList] using hAi
  have hszTL : sizeOk (BitRangeNode.combine (.Branch xv A .Empty)) = true :=
    bPB _ _ _ hszA rfl
  have hgsTL : get_size (BitRangeNode.combine (.Branch xv A .Empty)) = i := by
    rw [get_size_toList hszTL, hTL, List.length_take]
    omega
  have hszWL : sizeOk (BitRangeNode.combine (.Branch iv
      (BitRangeNode.combine (.Branch xv A .Empty)) fl2)) = true :=
    bPB _ _ _ hszTL hszfl2
  have hWL : toList (BitRangeNode.combine (.Branch iv
      (BitRangeNode.combine (.Branch xv A .Empty)) fl2)) = full.take j.toNat := by
    rw [bcombB, hTL, ← hfl2, ← hIv]
    simp [List.append_assoc]
  have hgsWL : get_size (BitRangeNode.combine (.Branch iv
      (BitRangeNode.combine (.Branch xv A .Empty)) fl2)) = j := by
    rw [get_size_toList hszWL, hWL, List.length_take]
    omega
  have hf1 : find_index (BitRangeNode.combine (.Branch vj (BitRangeNode.combine
      (.Branch iv (BitRangeNode.combine (.Branch xv A .Empty)) fl2)) fr2))
      (i - 1) =
      find_index_at (i - 1) [⟨.Left, vj, fr2⟩]
        (BitRangeNode.combine (.Branch iv
          (BitRangeNode.combine (.Branch xv A .Empty)) fl2)) := by
    show find_index_at (i - 1) [] _ = _
    exact find_index_at_left _ _ _ _ _ _ (bsep_comb _ _ _) (by rw [hgsWL]; omega)
  have hf2 : find_index_at (i - 1) [⟨.Left, vj, fr2⟩]
      (BitRangeNode.combine (.Branch iv
        (BitRangeNode.combine (.Branch xv A .Empty)) fl2)) =
      find_index_at (i - 1) [⟨.Left, iv, fl2⟩, ⟨.Left, vj, fr2⟩]
        (BitRangeNode.combine (.Branch xv A .Empty)) :=
    find_index_at_left _ _ _ _ _ _ (bsep_comb _ _ _) (by rw [hgsTL]; omega)
  have hf3 : find_index_at (i - 1) [⟨.Left, iv, fl2⟩, ⟨.Left, vj, fr2⟩]
      (BitRangeNode.combine (.Branch xv A .Empty)) =
      ⟨[⟨.Left, iv, fl2⟩, ⟨.Left, vj, fr2⟩],
        BitRangeNode.combine (.Branch xv A .Empty)⟩ :=
    find_index_at_stop _ _ _ _ _ _ (bsep_comb _ _ _) (by rw [hgsA])
  have hrz : right_zipper BitRangeNode.separate BitRangeNode.combine
      ⟨[⟨.Left, iv, fl2⟩, ⟨.Left, vj, fr2⟩],
        BitRangeNode.combine (.Branch xv A .Empty)⟩ =
      ⟨[⟨.Right, xv, A⟩, ⟨.Left, iv, fl2⟩, ⟨.Left, vj, fr2⟩], .Empty⟩ := by
    simp [right_zipper, bsep_comb]
  have hpar : parent_zipper BitRangeNode.combine
      ⟨[⟨.Right, xv, A⟩, ⟨.Left, iv, fl2⟩, ⟨.Left, vj, fr2⟩], .Empty⟩ =
      ⟨[⟨.Left, iv, fl2⟩, ⟨.Left, vj, fr2⟩],
        BitRangeNode.combine (.Branch xv A .Empty)⟩ := by
    simp [parent_zipper, step_combine]
  have hrot : rotate_zipper BitRangeNode.separate BitRangeNode.combine
      ⟨[⟨.Left, iv, fl2⟩, ⟨.Left, vj, fr2⟩],
        BitRangeNode.combine (.Branch xv A .Empty)⟩ =
      ⟨[⟨.Left, vj, fr2⟩], BitRangeNode.combine (.Branch xv A
        (BitRangeNode.combine (.Branch iv .Empty fl2)))⟩ := by
    simp [rotate_zipper, bsep_comb]
  have hrz2 : right_zipper BitRangeNode.separate BitRangeNode.combine
      ⟨[⟨.Left, vj, fr2⟩], BitRangeNode.combine (.Branch xv A
        (BitRangeNode.combine (.Branch iv .Empty fl2)))⟩ =
      ⟨[⟨.Right, xv, A⟩, ⟨.Left, vj, fr2⟩],
        BitRangeNode.combine (.Branch iv .Empty fl2)⟩ := by
    simp [right_zipper, bsep_comb]
  simp only [hf1, hf2, hf3, hrz]
  have hbr : BitRangeNode.is_branch
      (BitRangeNode.Empty : BitRangeNode) = false := rfl
  simp only [hbr, Bool.false_eq_true, if_false, hpar, hrot, hrz2]

theorem caseD_finish (i j : Int) (full : List Bool) (xv vj : Bool)
    (A RT focus : BitRangeNode)
    (hAi : toList A ++ [xv] = full.take i.toNat)
    (hfocus : full.take i.toNat ++ toList focus = full.take j.toNat)
    (hRT : vj :: toList RT = full.drop j.toNat)
    (hszfocus : sizeOk focus = true) (hszA : sizeOk A = true)
    (hszRT : sizeOk RT = true) :
    pathBefore toList [⟨.Right, xv, A⟩, ⟨.Left, vj, (RT : BitRangeNode)⟩] =
      full.take i.toNat ∧
    pathBefore toList [⟨.Right, xv, A⟩, ⟨.Left, vj, (RT : BitRangeNode)⟩] ++
      toList focus = full.take j.toNat ∧
    pathAfter toList [⟨.Right, xv, A⟩, ⟨.Left, vj, (RT : BitRangeNode)⟩] =
      full.drop j.toNat ∧
    sizeOk focus = true ∧
    pathOk (fun m => sizeOk m = true)
      [⟨.Right, xv, A⟩, ⟨.Left, vj, (RT : BitRangeNode)⟩] := by
  have hb : pathBefore toList [⟨.Right, xv, A⟩, ⟨.Left, vj, (RT : BitRangeNode)⟩] =
      full.take i.toNat := by
    rw [pathBefore_right, pathBefore_left, pathBefore_nil]
    simpa using hAi
  refine ⟨hb, ?_, ?_, hszfocus, ?_⟩
  · rw [hb, hfocus]
  · rw [pathAfter_right, pathAfter_left, pathAfter_nil]
    simpa using hRT
  · intro s hs
    simp at hs
    rcases hs with hs | hs <;> rw [hs]
    · exact hszA
    · exact hszRT

theorem caseD_main (t : BitRangeNode) (i j : Int) (hsz : sizeOk t = true)
    (h1 : 1 ≤ i) (hij : i < j) (hj : j < (numNodes t : Int)) :
    ∃ zf,
      (let r1 := bzip (bsplay (find_index t i));
       let r2 := bzip (bsplay (find_index r1 (i - 1)));
       let r3 := bzip (bsplay (find_index r2 j));
       let zipper := right_zipper BitRangeNode.separate BitRangeNode.combine
         (find_index r3 (i - 1));
       if BitRangeNode.is_branch zipper.here then zipper
       else right_zipper BitRangeNode.separate BitRangeNode.combine
         (rotate_zipper BitRangeNode.separate BitRangeNode.combine
           (parent_zipper BitRangeNode.combine zipper))) = zf ∧
      pathBefore toList zf.path = (toList t).take i.toNat ∧
      pathBefore toList zf.path ++ toList zf.here = (toList t).take j.toNat ∧
      pathAfter toList zf.path = (toList t).drop j.toNat ∧
      sizeOk zf.here = true ∧ pathOk (fun m => sizeOk m = true) zf.path := by
  obtain ⟨xv, iv, FL, R1, hr2, hFLxv, hIv, hR1, hW2ok⟩ := caseD_r2 t i hsz h1 (by omega)
  obtain ⟨hszFL, hszB⟩ := comb_sizeOk_parts _ _ _ hW2ok
  obtain ⟨_, hszR1⟩ := comb_sizeOk_parts _ _ _ hszB
  have hlenfull : (toList t).length = numNodes t := length_toList t
  have hlenFL : (toList FL).length = i.toNat - 1 := by
    have := congrArg List.length hFLxv
    simp [List.length_take] at this
    omega
  have hgsFL : get_size FL = i - 1 := by
    rw [get_size_toList hszFL, hlenFL]
    omega
  have hlenR1 : (toList R1).length = (toList t).length - (i.toNat + 1) := by
    rw [hR1, List.length_drop]
  have hnumR1 : numNodes R1 = (toList t).length - (i.toNat + 1) := by
    rw [← length_toList, hlenR1]
  have hs1 : find_index (BitRangeNode.combine (.Branch xv FL
      (BitRangeNode.combine (.Branch iv .Empty R1)))) j =
      find_index_at (j - i) [⟨.Right, xv, FL⟩]
        (BitRangeNode.combine (.Branch iv .Empty R1)) := by
    show find_index_at j [] _ = _
    rw [find_index_at_right j [] _ xv FL _ (bsep_comb _ _ _) (by rw [hgsFL]; omega)]
    rw [show j - get_size FL - 1 = j - i by rw [hgsFL]; ring]
  have hs2 : find_index_at (j - i) [⟨.Right, xv, FL⟩]
      (BitRangeNode.combine (.Branch iv .Empty R1)) =
      find_index_at (j - i - 1) [⟨.Right, iv, .Empty⟩, ⟨.Right, xv, FL⟩] R1 := by
    rw [find_index_at_right _ _ _ iv .Empty R1 (bsep_comb _ _ _)
      (by show (0 : Int) < j - i; omega)]
    rw [show j - i - get_size .Empty - 1 = j - i - 1 by
      show j - i - 0 - 1 = j - i - 1; ring]
  obtain ⟨news, vj, flj, frj, heq, e1, e2, e3, e4, e5, e6⟩ :=
    find_index_go_in (numNodes R1 + 1) (j - i - 1)
      [⟨.Right, iv, .Empty⟩, ⟨.Right, xv, FL⟩] R1 (by omega) hszR1 (by omega)
      (by rw [hnumR1]; omega)
  have hs3 : find_index_at (j - i - 1) [⟨.Right, iv, .Empty⟩, ⟨.Right, xv, FL⟩] R1 =
      ⟨news ++ [⟨.Right, iv, .Empty⟩, ⟨.Right, xv, FL⟩],
        BitRangeNode.combine (.Branch vj flj frj)⟩ := heq
  have hPBbase : pathBefore toList [⟨.Right, iv, (.Empty : BitRangeNode)⟩,
      ⟨.Right, xv, FL⟩] = (toList t).take (i.toNat + 1) := by
    rw [pathBefore_right, pathBefore_right, pathBefore_nil]
    rw [← hIv, ← hFLxv]
    simp [toList, List.append_assoc]
  have hPAbase : pathAfter toList [⟨.Right, iv, (.Empty : BitRangeNode)⟩,
      ⟨.Right, xv, FL⟩] = [] := rfl
  have hjn : (j - i - 1).toNat + (i.toNat + 1) = j.toNat := by omega
  have hBB : pathBefore toList (news ++ [⟨.Right, iv, .Empty⟩, ⟨.Right, xv, FL⟩]) ++
      toList flj = (toList t).take j.toNat := by
    rw [e4, hPBbase, hR1]
    rw [← List.take_add]
    rw [show i.toNat + 1 + (j - i - 1).toNat = j.toNat by omega]
  have hBBv : pathBefore toList (news ++ [⟨.Right, iv, .Empty⟩, ⟨.Right, xv, FL⟩]) ++
      toList flj ++ [vj] = (toList t).take (j.toNat + 1) := by
    rw [e5, hPBbase, hR1, ← List.take_add]
    rw [show i.toNat + 1 + ((j - i - 1).toNat + 1) = j.toNat + 1 by omega]
  have hAA : toList frj ++ pathAfter toList (news ++ [⟨.Right, iv, .Empty⟩,
      ⟨.Right, xv, FL⟩]) = (toList t).drop (j.toNat + 1) := by
    rw [e6, hPAbase, hR1, List.drop_drop]
    rw [show i.toNat + 1 + ((j - i - 1).toNat + 1) = j.toNat + 1 by omega]
    simp
  have htakevj : (toList t).take j.toNat ++ [vj] = (toList t).take (j.toNat + 1) := by
    rw [← hBB]
    exact hBBv
  have hjlen : j.toNat < (toList t).length := by omega
  have hdropj : (toList t).drop j.toNat = vj :: (toList t).drop (j.toNat + 1) :=
    drop_cons_elem htakevj hjlen
  obtain ⟨W3, hW3go, hshapes⟩ :=
    sl2_go news.length news (le_refl _) (news.length + 2) xv iv FL
      (BitRangeNode.combine (.Branch vj flj frj)) vj flj frj (bsep_comb _ _ _)
      (by omega)
  have hsplay3 : bsplay ⟨news ++ [⟨.Right, iv, .Empty⟩, ⟨.Right, xv, FL⟩],
      BitRangeNode.combine (.Branch vj flj frj)⟩ = ⟨[], W3⟩ := by
    rw [bsplay_go_eq _ (by simp) (comb_is_branch _ _ _)]
    simpa using hW3go
  have hr3 : bzip (bsplay (find_index (BitRangeNode.combine (.Branch xv FL
      (BitRangeNode.combine (.Branch iv .Empty R1)))) j)) = W3 := by
    rw [hs1, hs2, hs3, hsplay3, bzip_nil]
  have hW3ok : sizeOk W3 = true := by
    have hpOk : pathOk (fun m => sizeOk m = true)
        (news ++ [⟨.Right, iv, .Empty⟩, ⟨.Right, xv, FL⟩]) := by
      intro s hs
      rcases List.mem_append.mp hs with hs | hs
      · exact e3 s hs
      · simp at hs
        rcases hs with hs | hs <;> rw [hs]
        · rfl
        · exact hszFL
    have := bzip_bsplay_P ⟨news ++ [⟨.Right, iv, .Empty⟩, ⟨.Right, xv, FL⟩],
      BitRangeNode.combine (.Branch vj flj frj)⟩ (bPB _ _ _ e1 e2) hpOk
    rw [hsplay3, bzip_nil] at this
    exact this
  have hjle : j.toNat ≤ (toList t).length := by omega
  rcases hshapes with ⟨fl2, fr2, w1, w2, w3⟩ | ⟨fl2, fr2, pv, sib, w1, w2, w3⟩ |
    ⟨fl2, fr2, pv, sib, w1, w2, w3⟩
  · -- fallback shape
    obtain ⟨hszWL3, hszfr2⟩ := comb_sizeOk_parts _ _ _ (w1 ▸ hW3ok)
    obtain ⟨_, hszfl2⟩ := comb_sizeOk_parts _ _ _ hszWL3
    have hfl2 : (toList t).take (i.toNat + 1) ++ toList fl2 =
        (toList t).take j.toNat := by
      have := w2
      rw [hPBbase] at this
      rw [this, hBB]
    have hfr2 : vj :: toList fr2 = (toList t).drop j.toNat := by
      rw [hdropj, ← hAA, w3]
    have htail := caseD_tail_fallback i j (toList t) vj xv iv FL fl2 fr2
      hFLxv hIv hfl2 hszFL hszfl2 hjle hij h1 (by omega)
    refine ⟨⟨[⟨.Right, xv, FL⟩, ⟨.Left, vj, fr2⟩],
      BitRangeNode.combine (.Branch iv .Empty fl2)⟩, ?_, ?_⟩
    · simp only [hr2, hr3, w1]
      exact htail
    · have hfoc : (toList t).take i.toNat ++ toList (BitRangeNode.combine
          (.Branch iv .Empty fl2)) = (toList t).take j.toNat := by
        rw [bcombB]
        show (toList t).take i.toNat ++ ([] ++ iv :: toList fl2) = _
        rw [← hfl2, ← hIv]
        simp [List.append_assoc]
      exact caseD_finish i j (toList t) xv vj FL fr2
        (BitRangeNode.combine (.Branch iv .Empty fl2)) hFLxv hfoc hfr2
        (bPB _ _ _ rfl hszfl2) hszFL hszfr2
  · -- direct shape with a two-level right part
    obtain ⟨hszWL3, hszRT⟩ := comb_sizeOk_parts _ _ _ (w1 ▸ hW3ok)
    obtain ⟨_, hszInner⟩ := comb_sizeOk_parts _ _ _ hszWL3
    have hfl2 : (toList t).take (i.toNat + 1) ++ toList fl2 =
        (toList t).take j.toNat := by
      have := w2
      rw [hPBbase] at this
      rw [this, hBB]
    have hinner : (toList t).take i.toNat ++ toList (BitRangeNode.combine
        (.Branch iv .Empty fl2)) = (toList t).take j.toNat := by
      rw [bcombB]
      show (toList t).take i.toNat ++ ([] ++ iv :: toList fl2) = _
      rw [← hfl2, ← hIv]
      simp [List.append_assoc]
    have hRT : vj :: toList (BitRangeNode.combine (.Branch pv fr2 sib)) =
        (toList t).drop j.toNat := by
      rw [bcombB, hdropj, ← hAA, ← w3]
    have htail := caseD_tail_direct i j (toList t) vj xv FL
      (BitRangeNode.combine (.Branch iv .Empty fl2))
      (BitRangeNode.combine (.Branch pv fr2 sib)) hFLxv hinner
      (comb_is_branch _ _ _) hszFL hszInner hjle hij h1 (by omega)
    refine ⟨⟨[⟨.Right, xv, FL⟩, ⟨.Left, vj,
      BitRangeNode.combine (.Branch pv fr2 sib)⟩],
      BitRangeNode.combine (.Branch iv .Empty fl2)⟩, ?_, ?_⟩
    · simp only [hr2, hr3, w1]
      exact htail
    · exact caseD_finish i j (toList t) xv vj FL
        (BitRangeNode.combine (.Branch pv fr2 sib))
        (BitRangeNode.combine (.Branch iv .Empty fl2)) hFLxv hinner hRT
        hszInner hszFL hszRT
  · -- direct shape with a two-level left part
    obtain ⟨hszWL3, hszfr2⟩ := comb_sizeOk_parts _ _ _ (w1 ▸ hW3ok)
    obtain ⟨_, hszInner3⟩ := comb_sizeOk_parts _ _ _ hszWL3
    have hinner : (toList t).take i.toNat ++ toList (BitRangeNode.combine
        (.Branch pv (BitRangeNode.combine (.Branch iv .Empty sib)) fl2)) =
        (toList t).take j.toNat := by
      rw [bcombB, bcombB]
      have := w2
      rw [hPBbase] at this
      rw [hBB] at this
      rw [← this, ← hIv]
      show (toList t).take i.toNat ++ (([] ++ iv :: toList sib) ++ pv :: toList fl2) = _
      simp [List.append_assoc]
    have hfr2 : vj :: toList fr2 = (toList t).drop j.toNat := by
      rw [hdropj, ← hAA, w3]
    have htail := caseD_tail_direct i j (toList t) vj xv FL
      (BitRangeNode.combine (.Branch pv (BitRangeNode.combine
        (.Branch iv .Empty sib)) fl2)) fr2 hFLxv hinner
      (comb_is_branch _ _ _) hszFL hszInner3 hjle hij h1 (by omega)
    refine ⟨⟨[⟨.Right, xv, FL⟩, ⟨.Left, vj, fr2⟩],
      BitRangeNode.combine (.Branch pv (BitRangeNode.combine
        (.Branch iv .Empty sib)) fl2)⟩, ?_, ?_⟩
    · simp only [hr2, hr3, w1]
      exact htail
    · exact caseD_finish i j (toList t) xv vj FL fr2
        (BitRangeNode.combine (.Branch pv (BitRangeNode.combine
          (.Branch iv .Empty sib)) fl2)) hFLxv hinner hfr2
        hszInner3 hszFL hszfr2

theorem caseD_eq (t : BitRangeNode) (i : Int) (hsz : sizeOk t = true)
    (h1 : 1 ≤ i) (hlt : i < (numNodes t : Int)) :
    ∃ zf,
      (let r1 := bzip (bsplay (find_index t i));
       let r2 := bzip (bsplay (find_index r1 (i - 1)));
       let r3 := bzip (bsplay (find_index r2 i));
       let zipper := right_zipper BitRangeNode.separate BitRangeNode.combine
         (find_index r3 (i - 1));
       if BitRangeNode.is_branch zipper.here then zipper
       else right_zipper BitRangeNode.separate BitRangeNode.combine
         (rotate_zipper BitRangeNode.separate BitRangeNode.combine
           (parent_zipper BitRangeNode.combine zipper))) = zf ∧
      pathBefore toList zf.path = (toList t).take i.toNat ∧
      pathBefore toList zf.path ++ toList zf.here = toList t ∧
      pathAfter toList zf.path = [] ∧
      sizeOk zf.here = true ∧ pathOk (fun m => sizeOk m = true) zf.path := by
  obtain ⟨xv, iv, FL, R1, hr2, hFLxv, hIv, hR1, hW2ok⟩ := caseD_r2 t i hsz h1 hlt
  obtain ⟨hszFL, hszB⟩ := comb_sizeOk_parts _ _ _ hW2ok
  obtain ⟨_, hszR1⟩ := comb_sizeOk_parts _ _ _ hszB
  have hlenfull : (toList t).length = numNodes t := length_toList t
  have hlenFL : (toList FL).length = i.toNat - 1 := by
    have := congrArg List.length hFLxv
    simp [List.length_take] at this
    omega
  have hgsFL : get_size FL = i - 1 := by
    rw [get_size_toList hszFL, hlenFL]
    omega
  have hf1 : find_index (BitRangeNode.combine (.Branch xv FL
      (BitRangeNode.combine (.Branch iv .Empty R1)))) i =
      find_index_at 0 [⟨.Right, xv, FL⟩]
        (BitRangeNode.combine (.Branch iv .Empty R1)) := by
    show find_index_at i [] _ = _
    rw [find_index_at_right i [] _ xv FL _ (bsep_comb _ _ _) (by rw [hgsFL]; omega)]
    rw [show i - get_size FL - 1 = 0 by rw [hgsFL]; ring]
  have hf2 : find_index_at 0 [⟨.Right, xv, FL⟩]
      (BitRangeNode.combine (.Branch iv .Empty R1)) =
      ⟨[⟨.Right, xv, FL⟩], BitRangeNode.combine (.Branch iv .Empty R1)⟩ :=
    find_index_at_stop _ _ _ _ _ _ (bsep_comb _ _ _) rfl
  have hsplay3 : bsplay ⟨[⟨.Right, xv, FL⟩],
      BitRangeNode.combine (.Branch iv .Empty R1)⟩ =
      ⟨[], BitRangeNode.combine (.Branch iv
        (BitRangeNode.combine (.Branch xv FL .Empty)) R1)⟩ := by
    rw [bsplay_go_eq _ (by simp) (comb_is_branch _ _ _)]
    show splay_go BitRangeNode.separate BitRangeNode.combine 1 _ = _
    show splay_go BitRangeNode.separate BitRangeNode.combine 0
      (splay_step BitRangeNode.separate BitRangeNode.combine
        ⟨[⟨.Right, xv, FL⟩], BitRangeNode.combine (.Branch iv .Empty R1)⟩) = _
    have : splay_step BitRangeNode.separate BitRangeNode.combine
        ⟨[⟨.Right, xv, FL⟩], BitRangeNode.combine (.Branch iv .Empty R1)⟩ =
        ⟨[], BitRangeNode.combine (.Branch iv
          (BitRangeNode.combine (.Branch xv FL .Empty)) R1)⟩ := by
      simp [splay_step, bsep_comb]
    rw [this]
    rfl
  have hr3 : bzip (bsplay (find_index (BitRangeNode.combine (.Branch xv FL
      (BitRangeNode.combine (.Branch iv .Empty R1)))) i)) =
      BitRangeNode.combine (.Branch iv
        (BitRangeNode.combine (.Branch xv FL .Empty)) R1) := by
    rw [hf1, hf2, hsplay3, bzip_nil]
  have hTL : toList (BitRangeNode.combine (.Branch xv FL .Empty)) =
      (toList t).take i.toNat := by
    rw [bcombB]
    simpa [toList] using hFLxv
  have hszTL : sizeOk (BitRangeNode.combine (.Branch xv FL .Empty)) = true :=
    bPB _ _ _ hszFL rfl
  have hgsTL : get_size (BitRangeNode.combine (.Branch xv FL .Empty)) = i := by
    rw [get_size_toList hszTL, hTL, List.length_take]
    omega
  have hf3 : find_index (BitRangeNode.combine (.Branch iv
      (BitRangeNode.combine (.Branch xv FL .Empty)) R1)) (i - 1) =
      find_index_at (i - 1) [⟨.Left, iv, R1⟩]
        (BitRangeNode.combine (.Branch xv FL .Empty)) := by
    show find_index_at (i - 1) [] _ = _
    exact find_index_at_left _ _ _ _ _ _ (bsep_comb _ _ _) (by rw [hgsTL]; omega)
  have hf4 : find_index_at (i - 1) [⟨.Left, iv, R1⟩]
      (BitRangeNode.combine (.Branch xv FL .Empty)) =
      ⟨[⟨.Left, iv, R1⟩], BitRangeNode.combine (.Branch xv FL .Empty)⟩ :=
    find_index_at_stop _ _ _ _ _ _ (bsep_comb _ _ _) (by rw [hgsFL])
  have hrz : right_zipper BitRangeNode.separate BitRangeNode.combine
      ⟨[⟨.Left, iv, R1⟩], BitRangeNode.combine (.Branch xv FL .Empty)⟩ =
      ⟨[⟨.Right, xv, FL⟩, ⟨.Left, iv, R1⟩], .Empty⟩ := by
    simp [right_zipper, bsep_comb]
  have hpar : parent_zipper BitRangeNode.combine
      ⟨[⟨.Right, xv, FL⟩, ⟨.Left, iv, R1⟩], .Empty⟩ =
      ⟨[⟨.Left, iv, R1⟩], BitRangeNode.combine (.Branch xv FL .Empty)⟩ := by
    simp [parent_zipper, step_combine]
  have hrot : rotate_zipper BitRangeNode.separate BitRangeNode.combine
      ⟨[⟨.Left, iv, R1⟩], BitRangeNode.combine (.Branch xv FL .Empty)⟩ =
      ⟨[], BitRangeNode.combine (.Branch xv FL
        (BitRangeNode.combine (.Branch iv .Empty R1)))⟩ := by
    simp [rotate_zipper, bsep_comb]
  have hrz2 : right_zipper BitRangeNode.separate BitRangeNode.combine
      ⟨[], BitRangeNode.combine (.Branch xv FL
        (BitRangeNode.combine (.Branch iv .Empty R1)))⟩ =
      ⟨[⟨.Right, xv, FL⟩], BitRangeNode.combine (.Branch iv .Empty R1)⟩ := by
    simp [right_zipper, bsep_comb]
  refine ⟨⟨[⟨.Right, xv, FL⟩], BitRangeNode.combine (.Branch iv .Empty R1)⟩, ?_,
    ?_, ?_, rfl, hszB, ?_⟩
  · simp only [hr2, hr3, hf3, hf4, hrz]
    have hbr : BitRangeNode.is_branch (BitRangeNode.Empty : BitRangeNode) = false := rfl
    simp only [hbr, Bool.false_eq_true, if_false, hpar, hrot, hrz2]
  · rw [pathBefore_right, pathBefore_nil]
    simpa using hFLxv
  · rw [pathBefore_right, pathBefore_nil, bcombB]
    show ([] ++ toList FL ++ [xv]) ++ ([] ++ iv :: toList R1) = toList t
    rw [List.nil_append, List.nil_append, hFLxv, hR1]
    rw [show (toList t).take i.toNat ++ iv :: (toList t).drop (i.toNat + 1) =
      ((toList t).take i.toNat ++ [iv]) ++ (toList t).drop (i.toNat + 1) by
        simp [List.append_assoc]]
    rw [hIv, List.take_append_drop]
  · intro s hs
    simp at hs
    rw [hs]
    exact hszFL

theorem caseB_main (t : BitRangeNode) (j : Int) (hsz : sizeOk t = true)
    (h0 : 0 ≤ j) (hj : j < (numNodes t : Int)) :
    ∃ zf, left_zipper BitRangeNode.separate BitRangeNode.combine
        (bsplay (find_index t j)) = zf ∧
      pathBefore toList zf.path = [] ∧
      pathBefore toList zf.path ++ toList zf.here = (toList t).take j.toNat ∧
      pathAfter toList zf.path = (toList t).drop j.toNat ∧
      sizeOk zf.here = true ∧ pathOk (fun m => sizeOk m = true) zf.path := by
  obtain ⟨T, vj, FLn, FRn, hspl, hsep, e1, e2, e3, hT, hFL, hFR⟩ :=
    splay_find_shape t j hsz h0 hj
  have hlz : left_zipper BitRangeNode.separate BitRangeNode.combine
      (bsplay (find_index t j)) = ⟨[⟨.Left, vj, FRn⟩], FLn⟩ := by
    rw [hspl]
    simp [left_zipper, hsep]
  refine ⟨⟨[⟨.Left, vj, FRn⟩], FLn⟩, hlz, rfl, ?_, ?_, hFL, ?_⟩
  · rw [pathBefore_left, pathBefore_nil, List.nil_append]
    exact e1
  · rw [pathAfter_left, pathAfter_nil, List.append_nil]
    show vj :: toList FRn = _
    rw [e3]
    rw [e1] at e2
    refine (drop_cons_elem e2 ?_).symm
    rw [length_toList]
    omega
  · intro s hs
    simp at hs
    rw [hs]
    exact hFR

theorem isolate_char (t : BitRangeNode) (i j : Int) (hsz : sizeOk t = true)
    (h0 : 0 ≤ i) (hij : i ≤ j) (hj : j < (numNodes t : Int)) :
    ∃ z, isolate_interval t i j = z ∧
      pathBefore toList z.path = (toList t).take i.toNat ∧
      pathBefore toList z.path ++ toList z.here =
        (toList t).take (if 0 < i ∧ i = j then (toList t).length else j.toNat) ∧
      pathAfter toList z.path =
        (toList t).drop (if 0 < i ∧ i = j then (toList t).length else j.toNat) ∧
      sizeOk z.here = true ∧ pathOk (fun m => sizeOk m = true) z.path := by
  have hgs : get_size t = (numNodes t : Int) := get_size_eq hsz
  have hnotend : ¬ (j ≥ get_size t) := by rw [hgs]; omega
  by_cases hi0 : i ≤ 0
  · have hieq : i = 0 := le_antisymm hi0 h0
    obtain ⟨zf, hzf, p1, p2, p3, p4, p5⟩ := caseB_main t j hsz (by omega) hj
    have hcond : ¬ (0 < i ∧ i = j) := by omega
    refine ⟨zf, ?_, ?_, ?_, ?_, p4, p5⟩
    · unfold isolate_interval
      rw [if_pos hi0, if_neg hnotend]
      exact hzf
    · rw [p1, hieq]
      simp
    · rw [if_neg hcond]
      exact p2
    · rw [if_neg hcond]
      exact p3
  · have hi1 : 1 ≤ i := by omega
    by_cases hieq : i = j
    · subst hieq
      obtain ⟨zf, hzf, p1, p2, p3, p4, p5⟩ := caseD_eq t i hsz hi1 (by omega)
      have hcond : 0 < i ∧ i = i := by omega
      refine ⟨zf, ?_, p1, ?_, ?_, p4, p5⟩
      · unfold isolate_interval
        rw [if_neg hi0, if_neg hnotend]
        exact hzf
      · rw [if_pos hcond, List.take_length]
        exact p2
      · rw [if_pos hcond, List.drop_length]
        exact p3
    · have hlt : i < j := lt_of_le_of_ne hij hieq
      obtain ⟨zf, hzf, p1, p2, p3, p4, p5⟩ := caseD_main t i j hsz hi1 hlt hj
      have hcond : ¬ (0 < i ∧ i = j) := by omega
      refine ⟨zf, ?_, p1, ?_, ?_, p4, p5⟩
      · unfold isolate_interval
        rw [if_neg hi0, if_neg hnotend]
        exact hzf
      · rw [if_neg hcond]
        exact p2
      · rw [if_neg hcond]
        exact p3

/-! ## The segment-reversal reading of `reverse_range` -/

theorem append_take_eq_drop {α : Type} {l X : List α} {a b : Nat}
    (h : l.take a ++ X = l.take b) (ha : a ≤ l.length) :
    X = (l.take b).drop a := by
  have hlen : (l.take a).length = a := by rw [List.length_take]; omega
  have h2 := congrArg (List.drop a) h
  rwa [List.drop_left' hlen] at h2

theorem revSegment_length (l : List Bool) (a b : Nat) (hab : a ≤ b)
    (hb : b ≤ l.length) : (revSegment l a b).length = l.length := by
  simp only [revSegment, List.length_append, List.length_take, List.length_reverse,
    List.length_drop]
  omega

theorem revSegment_invol (l : List Bool) (a b : Nat) (hab : a ≤ b)
    (hb : b ≤ l.length) : revSegment (revSegment l a b) a b = l := by
  have h1 : (l.take a).length = a := by rw [List.length_take]; omega
  have h12 : (l.take a ++ ((l.take b).drop a).reverse).length = b := by
    rw [List.length_append, h1, List.length_reverse, List.length_drop,
      List.length_take]
    omega
  have hL : revSegment l a b =
      (l.take a ++ ((l.take b).drop a).reverse) ++ l.drop b := rfl
  have htb : (revSegment l a b).take b =
      l.take a ++ ((l.take b).drop a).reverse := by
    rw [hL, List.take_left' h12]
  have hta : (revSegment l a b).take a = l.take a := by
    have e : (revSegment l a b).take a = ((revSegment l a b).take b).take a := by
      rw [List.take_take, min_eq_left hab]
    rw [e, htb, List.take_left' h1]
  have hdb : (revSegment l a b).drop b = l.drop b := by
    rw [hL, List.drop_left' h12]
  have hda : ((revSegment l a b).take b).drop a = ((l.take b).drop a).reverse := by
    rw [htb, List.drop_left' h1]
  show (revSegment l a b).take a ++ (((revSegment l a b).take b).drop a).reverse ++
      (revSegment l a b).drop b = l
  rw [hta, hda, hdb, List.reverse_reverse]
  rw [show l.take a = (l.take b).take a by rw [List.take_take, min_eq_left hab]]
  rw [List.take_append_drop, List.take_append_drop]

theorem reverse_char (S : BitRange) (i j : Int) (hsz : sizeOk S.root = true)
    (h0 : 0 ≤ i) (hij : i ≤ j) (hj : j < (numNodes S.root : Int)) :
    toList (S.reverse_range i j).root =
      revSegment (toList S.root) i.toNat
        (if 0 < i ∧ i = j then (toList S.root).length else j.toNat) := by
  obtain ⟨z, hz, p1, p2, p3, p4, p5⟩ := isolate_char S.root i j hsz h0 hij hj
  have hroot : (S.reverse_range i j).root =
      bzip ⟨z.path, Reversible.reversed z.here⟩ := by
    show bzip ⟨(isolate_interval S.root i j).path,
      Reversible.reversed (isolate_interval S.root i j).here⟩ = _
    rw [hz]
  rw [hroot, toList_bzip]
  show pathBefore toList z.path ++ toList (Reversible.reversed z.here) ++
      pathAfter toList z.path = _
  rw [toList_reversed, p1, p3]
  rw [p1] at p2
  have hfoc : toList z.here =
      ((toList S.root).take (if 0 < i ∧ i = j then (toList S.root).length
        else j.toNat)).drop i.toNat := by
    apply append_take_eq_drop p2
    rw [length_toList]
    omega
  rw [hfoc]
  rfl

/-! ## Container-level helper facts, stated over an arbitrary `BitRange` -/

theorem get_fst (S : BitRange) (i : Int) (hsz : sizeOk S.root = true) :
    (S.get i).1 = (if 0 ≤ i then (toList S.root)[i.toNat]? else none) :=
  (get_char S.root i hsz).1

theorem get_pres_toList (S : BitRange) (i : Int) (hsz : sizeOk S.root = true) :
    toList ((S.get i).2).root = toList S.root :=
  (get_char S.root i hsz).2.1

theorem get_pres_sizeOk (S : BitRange) (i : Int) (hsz : sizeOk S.root = true) :
    sizeOk ((S.get i).2).root = true :=
  (get_char S.root i hsz).2.2

theorem set_toList (S : BitRange) (i : Int) (v : Bool) (hsz : sizeOk S.root = true) :
    toList ((S.set i v)).root =
      (if 0 ≤ i then (toList S.root).set i.toNat v else toList S.root) :=
  (set_char S.root i v hsz).1

theorem set_sizeOk (S : BitRange) (i : Int) (v : Bool) (hsz : sizeOk S.root = true) :
    sizeOk ((S.set i v)).root = true :=
  (set_char S.root i v hsz).2

theorem reverse_sizeOk (S : BitRange) (i j : Int) (hsz : sizeOk S.root = true) :
    sizeOk ((S.reverse_range i j)).root = true :=
  reverse_any_sizeOk S.root i j hsz

/-! ## The claims about the reversible sequence -/

/-- C1 (counterexample to the claimed readout): on the length-4 sequence with
bits `[1,1,0,0]`, after `reverse_range(0,3)` the bit read at position 1 is not
the bit that was at position `0 + 3 - 1 = 2` before the call: the code reverses
the half-open range `[0,3)`, producing `[0,1,1,0]`, not the claimed `[0,0,1,1]`. -/
theorem reverse_range_inclusive_readout_cex :
    ¬ ((((((BitRange.new 4).set 0 true).set 1 true).reverse_range 0 3).get 1).1 =
       ((((BitRange.new 4).set 0 true).set 1 true).get (0 + 3 - 1)).1) := by
  decide

/-- C1 (amended): for a reachable sequence and `0 ≤ i ≤ j < len`,
`reverse_range(i, j)` reverses the half-open index range `[i, j)` — not the
inclusive range `[i, j]` — except that in the corner case `0 < i = j` it
reverses the whole tail `[i, len)` instead of being a no-op; the readout via
`get` afterwards is exactly that of the segment-reversed bit list. -/
theorem reverse_range_half_open (S : BitRange) (hS : Reachable S) (i j : Int)
    (h0 : 0 ≤ i) (hij : i ≤ j) (hj : j < get_size S.root) :
    toList (S.reverse_range i j).root =
      revSegment (toList S.root) i.toNat
        (if 0 < i ∧ i = j then (toList S.root).length else j.toNat) ∧
    (∀ k : Int, ((S.reverse_range i j).get k).1 =
      (if 0 ≤ k then (revSegment (toList S.root) i.toNat
        (if 0 < i ∧ i = j then (toList S.root).length else j.toNat))[k.toNat]?
       else none)) := by
  have hsz := reachable_sizeOk hS
  have hgs := get_size_eq hsz
  have h1 := reverse_char S i j hsz h0 hij (by omega)
  refine ⟨h1, fun k => ?_⟩
  rw [get_fst _ k (reverse_sizeOk S i j hsz), h1]

theorem reverse_range_half_open_witness :
    toList ((BitRange.new 2).reverse_range 0 1).root =
      revSegment (toList (BitRange.new 2).root) (0 : Int).toNat
        (if 0 < (0 : Int) ∧ (0 : Int) = 1 then
          (toList (BitRange.new 2).root).length else (1 : Int).toNat) ∧
    (∀ k : Int, (((BitRange.new 2).reverse_range 0 1).get k).1 =
      (if 0 ≤ k then (revSegment (toList (BitRange.new 2).root) (0 : Int).toNat
        (if 0 < (0 : Int) ∧ (0 : Int) = 1 then
          (toList (BitRange.new 2).root).length else (1 : Int).toNat))[k.toNat]?
       else none)) :=
  reverse_range_half_open (BitRange.new 2) (Reachable.new 2) 0 1 (by decide)
    (by decide) (by decide)

/-- C2: for a reachable sequence, `get(i)` returns `none` exactly when `i` is
out of range (`i < 0` or `i ≥ len`), and within range it returns `some` of the
bit at position `i` of the logical bit list. -/
theorem get_none_iff_out_of_range (S : BitRange) (hS : Reachable S) (i : Int) :
    ((S.get i).1 = none ↔ i < 0 ∨ get_size S.root ≤ i) ∧
    (0 ≤ i → i < get_size S.root →
      (S.get i).1 = some ((toList S.root).getD i.toNat false)) := by
  have hsz := reachable_sizeOk hS
  have hlen : (toList S.root).length = numNodes S.root := length_toList _
  have hgs : get_size S.root = (numNodes S.root : Int) := get_size_eq hsz
  have hfst := get_fst S i hsz
  constructor
  · rw [hfst]
    by_cases h0 : 0 ≤ i
    · rw [if_pos h0, List.getElem?_eq_none_iff]
      constructor
      · intro hle
        right
        omega
      · intro h
        omega
    · rw [if_neg h0]
      simp only [true_iff]
      left
      omega
  · intro h1 h2
    have hn : i.toNat < (toList S.root).length := by omega
    rw [hfst, if_pos h1, List.getElem?_eq_getElem hn]
    have : (toList S.root).getD i.toNat false = (toList S.root)[i.toNat] := by
      simp [List.getD_eq_getElem?_getD, List.getElem?_eq_getElem hn]
    rw [this]

theorem get_none_iff_out_of_range_witness :
    (((BitRange.new 1).get 5).1 = none ↔ (5 : Int) < 0 ∨
      get_size (BitRange.new 1).root ≤ 5) ∧
    ((0 : Int) ≤ 5 → (5 : Int) < get_size (BitRange.new 1).root →
      ((BitRange.new 1).get 5).1 =
        some ((toList (BitRange.new 1).root).getD (5 : Int).toNat false)) :=
  get_none_iff_out_of_range (BitRange.new 1) (Reachable.new 1) 5

/-- C3: for a reachable sequence and an in-range index, `set(i, b)` followed
by `get(i)` returns `some b`. -/
theorem set_then_get (S : BitRange) (hS : Reachable S) (b : Bool) (i : Int)
    (h0 : 0 ≤ i) (hi : i < get_size S.root) :
    ((S.set i b).get i).1 = some b := by
  have hsz := reachable_sizeOk hS
  have hgs := get_size_eq hsz
  have hlen := length_toList S.root
  have hsz2 := set_sizeOk S i b hsz
  rw [get_fst _ i hsz2, if_pos h0, set_toList S i b hsz, if_pos h0]
  have hn : i.toNat < (toList S.root).length := by omega
  simp [List.getElem?_set_self, hn]

theorem set_then_get_witness : (((BitRange.new 1).set 0 true).get 0).1 = some true :=
  set_then_get (BitRange.new 1) (Reachable.new 1) true 0 (by decide) (by decide)

/-- C4: for a reachable sequence, `get(i)` does not change the logical
readout: every later `get(k)` returns the same value as before. -/
theorem get_preserves_readout (S : BitRange) (hS : Reachable S) (i : Int) :
    ∀ k : Int, (((S.get i).2).get k).1 = (S.get k).1 := by
  have hsz := reachable_sizeOk hS
  intro k
  rw [get_fst _ k (get_pres_sizeOk S i hsz), get_fst S k hsz,
    get_pres_toList S i hsz]

theorem get_preserves_readout_witness :
    ((((BitRange.new 2).get 0).2).get 1).1 = ((BitRange.new 2).get 1).1 :=
  get_preserves_readout (BitRange.new 2) (Reachable.new 2) 0 1

/-- C5: every tree reachable through the public operations satisfies the size
invariant — each `Branch`'s stored size equals the number of `Branch` nodes of
its subtree (0 for `Empty`) — the stored size of a size-correct node counts
its nodes, and the lazy-reversal push-down of `separate` preserves both the
invariant and the node count. -/
theorem reachable_size_fields_correct (S : BitRange) (hS : Reachable S) :
    sizeOk S.root = true ∧
    (∀ u : BitRangeNode, sizeOk u = true → get_size u = (numNodes u : Int)) ∧
    (∀ (u : BitRangeNode) (v : Bool) (l r : BitRangeNode),
      BitRangeNode.separate u = .Branch v l r → sizeOk u = true →
      sizeOk l = true ∧ sizeOk r = true ∧
        numNodes u = numNodes l + numNodes r + 1) :=
  ⟨reachable_sizeOk hS, fun _ hu => get_size_eq hu,
   fun u v l r hsep hu =>
     ⟨(bsep_sizeOk u v l r hsep hu).1, (bsep_sizeOk u v l r hsep hu).2,
      bsep_numNodes u v l r hsep⟩⟩

theorem reachable_size_fields_correct_witness :
    sizeOk (BitRange.new 3).root = true ∧
    (∀ u : BitRangeNode, sizeOk u = true → get_size u = (numNodes u : Int)) ∧
    (∀ (u : BitRangeNode) (v : Bool) (l r : BitRangeNode),
      BitRangeNode.separate u = .Branch v l r → sizeOk u = true →
      sizeOk l = true ∧ sizeOk r = true ∧
        numNodes u = numNodes l + numNodes r + 1) :=
  reachable_size_fields_correct (BitRange.new 3) (Reachable.new 3)

/-- C6: for a reachable sequence and `0 ≤ i ≤ j < len`, two successive calls
of `reverse_range(i, j)` leave the bit-by-bit readout via `get` unchanged. -/
theorem double_reverse_identity (S : BitRange) (hS : Reachable S) (i j : Int)
    (h0 : 0 ≤ i) (hij : i ≤ j) (hj : j < get_size S.root) :
    ∀ k : Int, (((S.reverse_range i j).reverse_range i j).get k).1 =
      (S.get k).1 := by
  have hsz := reachable_sizeOk hS
  have hgs := get_size_eq hsz
  have hlen := length_toList S.root
  have hj' : j < (numNodes S.root : Int) := by omega
  have h1 := reverse_char S i j hsz h0 hij hj'
  have hsz1 : sizeOk (S.reverse_range i j).root = true := reverse_sizeOk S i j hsz
  have hab : i.toNat ≤ (if 0 < i ∧ i = j then (toList S.root).length
      else j.toNat) := by
    split <;> omega
  have hb : (if 0 < i ∧ i = j then (toList S.root).length else j.toNat) ≤
      (toList S.root).length := by
    split <;> omega
  have hlen1 : (toList (S.reverse_range i j).root).length =
      (toList S.root).length := by
    rw [h1]
    exact revSegment_length _ _ _ hab hb
  have hj1 : j < (numNodes (S.reverse_range i j).root : Int) := by
    have := length_toList (S.reverse_range i j).root
    omega
  have h2 := reverse_char (S.reverse_range i j) i j hsz1 h0 hij hj1
  rw [hlen1] at h2
  rw [h1] at h2
  rw [revSegment_invol _ _ _ hab hb] at h2
  have hsz2 : sizeOk ((S.reverse_range i j).reverse_range i j).root = true :=
    reverse_sizeOk _ i j hsz1
  intro k
  rw [get_fst _ k hsz2, get_fst S k hsz, h2]

theorem double_reverse_identity_witness :
    ((((BitRange.new 2).reverse_range 0 1).reverse_range 0 1).get 0).1 =
      ((BitRange.new 2).get 0).1 :=
  double_reverse_identity (BitRange.new 2) (Reachable.new 2) 0 1 (by decide)
    (by decide) (by decide) 0

/-- C9: for a reachable sequence and an out-of-range index (`i < 0` or
`i ≥ len`), `set(i, b)` is a silent no-op: the length is unchanged and every
later `get(k)` returns the same value as before. -/
theorem out_of_range_set_noop (S : BitRange) (hS : Reachable S) (b : Bool)
    (i : Int) (hout : i < 0 ∨ get_size S.root ≤ i) :
    get_size (S.set i b).root = get_size S.root ∧
    ∀ k : Int, ((S.set i b).get k).1 = (S.get k).1 := by
  have hsz := reachable_sizeOk hS
  have hgs := get_size_eq hsz
  have hlen := length_toList S.root
  have hsz2 := set_sizeOk S i b hsz
  have htl : toList (S.set i b).root = toList S.root := by
    rw [set_toList S i b hsz]
    by_cases h0 : 0 ≤ i
    · rw [if_pos h0]
      apply List.set_eq_of_length_le
      omega
    · rw [if_neg h0]
  have hnum : numNodes (S.set i b).root = numNodes S.root := by
    have h2 := congrArg List.length htl
    rw [length_toList, length_toList] at h2
    exact h2
  constructor
  · rw [get_size_eq hsz2, get_size_eq hsz, hnum]
  · intro k
    rw [get_fst _ k hsz2, get_fst S k hsz, htl]

theorem out_of_range_set_noop_witness :
    get_size ((BitRange.new 2).set 5 true).root = get_size (BitRange.new 2).root ∧
    ∀ k : Int, (((BitRange.new 2).set 5 true).get k).1 = ((BitRange.new 2).get k).1 :=
  out_of_range_set_noop (BitRange.new 2) (Reachable.new 2) true 5 (by decide)

/-- C10: for every `n ≤ 0`, `BitRange::new(n)` is the empty sequence: the
root is `Empty`, its size reads 0, and `get(i)` returns `none` for every
index. -/
theorem new_nonpos_empty (n : Int) (hn : n ≤ 0) :
    (BitRange.new n).root = .Empty ∧ get_size (BitRange.new n).root = 0 ∧
    ∀ i : Int, ((BitRange.new n).get i).1 = none := by
  have h0 : n.toNat = 0 := by omega
  have hroot : (BitRange.new n).root = .Empty := by
    show new_go n.toNat .Empty = .Empty
    rw [h0]
    rfl
  refine ⟨hroot, by rw [hroot]; rfl, fun i => ?_⟩
  rw [get_fst (BitRange.new n) i (by rw [hroot]; rfl), hroot]
  by_cases h0i : 0 ≤ i
  · rw [if_pos h0i]
    exact List.getElem?_nil
  · rw [if_neg h0i]

theorem new_nonpos_empty_witness :
    (BitRange.new (-3)).root = .Empty ∧ get_size (BitRange.new (-3)).root = 0 ∧
    ∀ i : Int, ((BitRange.new (-3)).get i).1 = none :=
  new_nonpos_empty (-3) (by decide)

/-! ## The plain-node instantiation: laws and splay facts for the ordered set -/

theorem pcombB {A : Type} (v : A) (l r : TreeNode A) :
    inorder (TreeNode.combine (.Branch v l r)) = inorder l ++ v :: inorder r := rfl

theorem pcombE {A : Type} :
    inorder (TreeNode.combine (.Empty : TreeF A (TreeNode A))) = [] := rfl

theorem psep_comb {A : Type} (v : A) (l r : TreeNode A) :
    TreeNode.separate (TreeNode.combine (.Branch v l r)) = .Branch v l r := rfl

theorem psepB {A : Type} (n : TreeNode A) (v : A) (l r : TreeNode A)
    (h : TreeNode.separate n = .Branch v l r) :
    inorder n = inorder l ++ v :: inorder r := by
  cases n with
  | Empty => simp [TreeNode.separate] at h
  | Branch val left right =>
    simp only [TreeNode.separate, TreeF.Branch.injEq] at h
    obtain ⟨h1, h2, h3⟩ := h
    subst h1
    subst h2
    subst h3
    rfl

theorem psepE {A : Type} (n : TreeNode A) (h : TreeNode.separate n = .Empty) :
    inorder n = [] := by
  cases n with
  | Empty => rfl
  | Branch val left right => simp [TreeNode.separate] at h

theorem pisb {A : Type} (n : TreeNode A) (v : A) (l r : TreeNode A)
    (h : TreeNode.separate n = .Branch v l r) : TreeNode.is_branch n = true := by
  cases n with
  | Empty => simp [TreeNode.separate] at h
  | Branch val left right => rfl

theorem psep_branch_eq {A : Type} (n : TreeNode A) (v : A) (l r : TreeNode A)
    (h : TreeNode.separate n = .Branch v l r) : n = .Branch v l r := by
  cases n with
  | Empty => simp [TreeNode.separate] at h
  | Branch val left right =>
    simp only [TreeNode.separate, TreeF.Branch.injEq] at h
    obtain ⟨h1, h2, h3⟩ := h
    rw [h1, h2, h3]

theorem inorder_pzip {A : Type} (z : TreeZipper A (TreeNode A)) :
    inorder (pzip z) =
      pathBefore inorder z.path ++ inorder z.here ++ pathAfter inorder z.path :=
  toL_zip_tree TreeNode.combine inorder pcombB z

theorem inorder_pzip_psplay {A : Type} (z : TreeZipper A (TreeNode A)) :
    inorder (pzip (psplay z)) = inorder (pzip z) :=
  splay_zip TreeNode.combine TreeNode.separate TreeNode.is_branch inorder
    pcombB pcombE psepB psepE z

theorem psplay_root {A : Type} (z : TreeZipper A (TreeNode A)) (v : A)
    (fl fr : TreeNode A) (hs : TreeNode.separate z.here = .Branch v fl fr) :
    ∃ T FL FR, psplay z = ⟨[], T⟩ ∧ TreeNode.separate T = .Branch v FL FR ∧
      inorder FL = pathBefore inorder z.path ++ inorder fl ∧
      inorder FR = inorder fr ++ pathAfter inorder z.path := by
  obtain ⟨T, FL, FR, h1, h2, h3, h4, _, _, _⟩ :=
    splay_root TreeNode.combine TreeNode.separate TreeNode.is_branch inorder
      (fun _ => True) pcombB psep_comb (fun _ _ _ _ _ => trivial)
      (fun _ _ _ _ _ _ => ⟨trivial, trivial⟩) pisb z v fl fr hs trivial
      (fun _ _ => trivial)
  exact ⟨T, FL, FR, h1, h2, h3, h4⟩

/-! ## The ordered descent of `find` -/

theorem find_go_denote {A : Type} [LinearOrder A] (v : A) :
    ∀ (t : TreeNode A) (path : List (TreeZipperStep A (TreeNode A))),
    pathBefore inorder (find_go v path t).path ++ inorder (find_go v path t).here ++
      pathAfter inorder (find_go v path t).path =
    pathBefore inorder path ++ inorder t ++ pathAfter inorder path := by
  intro t
  induction t with
  | Empty =>
    intro path
    simp [find_go, inorder]
  | Branch val left right ihl ihr =>
    intro path
    by_cases h1 : v < val
    · rw [show find_go v path (.Branch val left right) =
        find_go v (⟨.Left, val, right⟩ :: path) left from by simp [find_go, h1]]
      rw [ihl, pathBefore_left, pathAfter_left]
      simp [inorder, List.append_assoc]
    · by_cases h2 : val < v
      · rw [show find_go v path (.Branch val left right) =
          find_go v (⟨.Right, val, left⟩ :: path) right from by
            simp [find_go, h1, h2]]
        rw [ihr, pathBefore_right, pathAfter_right]
        simp [inorder, List.append_assoc]
      · rw [show find_go v path (.Branch val left right) =
          ⟨path, .Branch val left right⟩ from by simp [find_go, h1, h2]]

theorem find_go_here_val {A : Type} [LinearOrder A] (v : A) :
    ∀ (t : TreeNode A) (path : List (TreeZipperStep A (TreeNode A)))
      (w : A) (l r : TreeNode A),
    (find_go v path t).here = .Branch w l r → w = v := by
  intro t
  induction t with
  | Empty =>
    intro path w l r h
    simp [find_go] at h
  | Branch val left right ihl ihr =>
    intro path w l r h
    by_cases h1 : v < val
    · rw [show find_go v path (.Branch val left right) =
        find_go v (⟨.Left, val, right⟩ :: path) left from by simp [find_go, h1]] at h
      exact ihl _ _ _ _ h
    · by_cases h2 : val < v
      · rw [show find_go v path (.Branch val left right) =
          find_go v (⟨.Right, val, left⟩ :: path) right from by
            simp [find_go, h1, h2]] at h
        exact ihr _ _ _ _ h
      · rw [show find_go v path (.Branch val left right) =
          ⟨path, .Branch val left right⟩ from by simp [find_go, h1, h2]] at h
        simp only [TreeNode.Branch.injEq] at h
        obtain ⟨hw, _, _⟩ := h
        rw [← hw]
        exact le_antisymm (not_lt.mp h1) (not_lt.mp h2)

theorem find_go_mem {A : Type} [LinearOrder A] (v : A) :
    ∀ (t : TreeNode A) (path : List (TreeZipperStep A (TreeNode A))),
    List.Pairwise (· < ·) (inorder t) →
    (¬ (find_go v path t).here = .Empty ↔ v ∈ inorder t) := by
  intro t
  induction t with
  | Empty =>
    intro path hp
    simp [find_go, inorder]
  | Branch val left right ihl ihr =>
    intro path hp
    obtain ⟨hpl, hpcons, hcross⟩ := List.pairwise_append.mp (by simpa [inorder] using hp)
    have hvr : ∀ y ∈ inorder right, val < y := (List.pairwise_cons.mp hpcons).1
    have hpr : List.Pairwise (· < ·) (inorder right) := (List.pairwise_cons.mp hpcons).2
    have hlv : ∀ x ∈ inorder left, x < val := fun x hx =>
      hcross x hx val (List.mem_cons_self _ _)
    by_cases h1 : v < val
    · rw [show find_go v path (.Branch val left right) =
        find_go v (⟨.Left, val, right⟩ :: path) left from by simp [find_go, h1]]
      rw [ihl _ hpl]
      simp only [inorder, List.mem_append, List.mem_cons]
      constructor
      · exact fun h => Or.inl h
      · rintro (h | h | h)
        · exact h
        · exact absurd h1 (by rw [h]; exact lt_irrefl val)
        · exact absurd (hvr _ h) (lt_asymm h1)
    · by_cases h2 : val < v
      · rw [show find_go v path (.Branch val left right) =
          find_go v (⟨.Right, val, left⟩ :: path) right from by
            simp [find_go, h1, h2]]
        rw [ihr _ hpr]
        simp only [inorder, List.mem_append, List.mem_cons]
        constructor
        · exact fun h => Or.inr (Or.inr h)
        · rintro (h | h | h)
          · exact absurd h2 (lt_asymm (hlv _ h))
          · exact absurd h2 (by rw [h]; exact lt_irrefl val)
          · exact h
      · rw [show find_go v path (.Branch val left right) =
          ⟨path, .Branch val left right⟩ from by simp [find_go, h1, h2]]
        have hval : val = v := le_antisymm (not_lt.mp h1) (not_lt.mp h2)
        simp [inorder, hval]

theorem find_go_bounds {A : Type} [LinearOrder A] (v : A) :
    ∀ (t : TreeNode A) (path : List (TreeZipperStep A (TreeNode A))),
    List.Pairwise (· < ·) (inorder t) →
    (∀ x ∈ pathBefore inorder path, x < v) →
    (∀ y ∈ pathAfter inorder path, v < y) →
    (∀ x ∈ pathBefore inorder (find_go v path t).path, x < v) ∧
    (∀ y ∈ pathAfter inorder (find_go v path t).path, v < y) := by
  intro t
  induction t with
  | Empty =>
    intro path hp hb ha
    exact ⟨hb, ha⟩
  | Branch val left right ihl ihr =>
    intro path hp hb ha
    obtain ⟨hpl, hpcons, hcross⟩ := List.pairwise_append.mp (by simpa [inorder] using hp)
    have hvr : ∀ y ∈ inorder right, val < y := (List.pairwise_cons.mp hpcons).1
    have hpr : List.Pairwise (· < ·) (inorder right) := (List.pairwise_cons.mp hpcons).2
    have hlv : ∀ x ∈ inorder left, x < val := fun x hx =>
      hcross x hx val (List.mem_cons_self _ _)
    by_cases h1 : v < val
    · rw [show find_go v path (.Branch val left right) =
        find_go v (⟨.Left, val, right⟩ :: path) left from by simp [find_go, h1]]
      refine ihl _ hpl ?_ ?_
      · intro x hx
        rw [pathBefore_left] at hx
        exact hb _ hx
      · intro y hy
        rw [pathAfter_left] at hy
        rcases List.mem_append.mp hy with hy | hy
        · rcases List.mem_cons.mp hy with hy | hy
          · rw [hy]
            exact h1
          · exact lt_trans h1 (hvr _ hy)
        · exact ha _ hy
    · by_cases h2 : val < v
      · rw [show find_go v path (.Branch val left right) =
          find_go v (⟨.Right, val, left⟩ :: path) right from by
            simp [find_go, h1, h2]]
        refine ihr _ hpr ?_ ?_
        · intro x hx
          rw [pathBefore_right] at hx
          rcases List.mem_append.mp hx with hx | hx
          · rcases List.mem_append.mp hx with hx | hx
            · exact hb _ hx
            · exact lt_trans (hlv _ hx) h2
          · rw [List.mem_singleton.mp hx]
            exact h2
        · intro y hy
          rw [pathAfter_right] at hy
          exact ha _ hy
      · rw [show find_go v path (.Branch val left right) =
          ⟨path, .Branch val left right⟩ from by simp [find_go, h1, h2]]
        exact ⟨hb, ha⟩

/-! ## Characterisation of `insert` and `contains` on sorted contents -/

theorem insert_inorder {A : Type} [LinearOrder A] (t : SplayTree A) (v : A)
    (hs : List.Pairwise (· < ·) (inorder t.root)) :
    (v ∈ inorder t.root → inorder (t.insert v).root = inorder t.root) ∧
    (v ∉ inorder t.root →
      ∃ bs as, inorder t.root = bs ++ as ∧
        inorder (t.insert v).root = bs ++ v :: as ∧
        (∀ x ∈ bs, x < v) ∧ (∀ y ∈ as, v < y)) := by
  have hden := find_go_denote v t.root []
  rw [pathBefore_nil, pathAfter_nil, List.nil_append, List.append_nil] at hden
  have hmem := find_go_mem v t.root [] hs
  rcases hfoc : (find_go v [] t.root).here with _ | ⟨w, l, r⟩
  · rw [hfoc] at hmem hden
    simp only [not_true_eq_false, false_iff] at hmem
    have hroot : (t.insert v).root =
        pzip (psplay ⟨(find_go v [] t.root).path, TreeNode.Branch v .Empty .Empty⟩) := by
      simp only [SplayTree.insert, find]
      rw [hfoc]
    have hbnd := find_go_bounds v t.root [] hs
      (by intro x hx; rw [pathBefore_nil] at hx; simp at hx)
      (by intro y hy; rw [pathAfter_nil] at hy; simp at hy)
    refine ⟨fun hv => absurd hv hmem, fun _ => ?_⟩
    refine ⟨pathBefore inorder (find_go v [] t.root).path,
            pathAfter inorder (find_go v [] t.root).path, ?_, ?_, hbnd.1, hbnd.2⟩
    · rw [← hden]
      simp [inorder]
    · rw [hroot, inorder_pzip_psplay, inorder_pzip]
      show pathBefore inorder (find_go v [] t.root).path ++
        inorder (TreeNode.Branch v .Empty .Empty) ++
        pathAfter inorder (find_go v [] t.root).path = _
      simp [inorder]
  · have hw : w = v := find_go_here_val v t.root [] w l r hfoc
    rw [hfoc] at hmem hden
    have hin : v ∈ inorder t.root := by
      rw [← hmem]
      simp
    have hroot : (t.insert v).root =
        pzip (psplay ⟨(find_go v [] t.root).path, TreeNode.Branch w l r⟩) := by
      simp only [SplayTree.insert, find]
      rw [hfoc]
    have heq : inorder (t.insert v).root = inorder t.root := by
      rw [hroot, inorder_pzip_psplay, inorder_pzip]
      show pathBefore inorder (find_go v [] t.root).path ++
        inorder (TreeNode.Branch w l r) ++
        pathAfter inorder (find_go v [] t.root).path = _
      exact hden
    exact ⟨fun _ => heq, fun hnot => absurd hin hnot⟩

theorem contains_spec {A : Type} [LinearOrder A] (t : SplayTree A) (v : A)
    (hs : List.Pairwise (· < ·) (inorder t.root)) :
    ((t.contains v).1 = true ↔ v ∈ inorder t.root) ∧
    inorder ((t.contains v).2).root = inorder t.root := by
  have hden := find_go_denote v t.root []
  rw [pathBefore_nil, pathAfter_nil, List.nil_append, List.append_nil] at hden
  have hmem := find_go_mem v t.root [] hs
  constructor
  · rcases hfoc : (find_go v [] t.root).here with _ | ⟨w, l, r⟩
    · have h1 : (t.contains v).1 = false := by
        simp only [SplayTree.contains, find]
        rw [hfoc]
      rw [hfoc] at hmem
      simp only [not_true_eq_false, false_iff] at hmem
      rw [h1]
      simp [hmem]
    · have h1 : (t.contains v).1 = true := by
        simp only [SplayTree.contains, find]
        rw [hfoc]
      rw [hfoc] at hmem
      have hin : v ∈ inorder t.root := by
        rw [← hmem]
        simp
      rw [h1]
      simp [hin]
  · have hroot : ((t.contains v).2).root = pzip (psplay (find_go v [] t.root)) := rfl
    rw [hroot, inorder_pzip_psplay, inorder_pzip]
    exact hden

theorem insertList_inv {A : Type} [LinearOrder A] :
    ∀ (ops : List A) (s : SplayTree A),
    List.Pairwise (· < ·) (inorder s.root) →
    List.Pairwise (· < ·)
      (inorder (ops.foldl (fun u w => u.insert w) s).root) ∧
    (∀ x, x ∈ inorder (ops.foldl (fun u w => u.insert w) s).root ↔
      x ∈ inorder s.root ∨ x ∈ ops) := by
  intro ops
  induction ops with
  | nil =>
    intro s hsort
    refine ⟨hsort, fun x => ?_⟩
    simp
  | cons v ops ih =>
    intro s hsort
    obtain ⟨hpres, habs⟩ := insert_inorder s v hsort
    have hkey : List.Pairwise (· < ·) (inorder (s.insert v).root) ∧
        (∀ x, x ∈ inorder (s.insert v).root ↔ x ∈ inorder s.root ∨ x = v) := by
      by_cases hv : v ∈ inorder s.root
      · rw [hpres hv]
        refine ⟨hsort, fun x => ?_⟩
        constructor
        · exact fun h => Or.inl h
        · rintro (h | h)
          · exact h
          · rw [h]
            exact hv
      · obtain ⟨bs, as, he1, he2, hbs, has⟩ := habs hv
        constructor
        · rw [he2]
          rw [he1, List.pairwise_append] at hsort
          obtain ⟨hq1, hq2, hq3⟩ := hsort
          rw [List.pairwise_append]
          refine ⟨hq1, ?_, ?_⟩
          · rw [List.pairwise_cons]
            exact ⟨has, hq2⟩
          · intro x hx y hy
            rcases List.mem_cons.mp hy with hy | hy
            · rw [hy]
              exact hbs x hx
            · exact hq3 x hx y hy
        · intro x
          rw [he2, he1]
          simp only [List.mem_append, List.mem_cons]
          constructor
          · rintro (h | h | h)
            · exact Or.inl (Or.inl h)
            · exact Or.inr h
            · exact Or.inl (Or.inr h)
          · rintro ((h | h) | h)
            · exact Or.inl h
            · exact Or.inr (Or.inr h)
            · exact Or.inr (Or.inl h)
    obtain ⟨hs2, hm2⟩ := ih (s.insert v) hkey.1
    refine ⟨hs2, fun x => ?_⟩
    show x ∈ inorder (ops.foldl (fun u w => u.insert w) (s.insert v)).root ↔ _
    rw [hm2 x, hkey.2 x]
    simp only [List.mem_cons]
    tauto

/-! ## The claims about the ordered set -/

/-- C7: an ordered set built from the empty set by any finite sequence of
`insert` calls answers `contains(v)` with `true` exactly when `v` occurs among
the inserted values. -/
theorem contains_iff_inserted {A : Type} [LinearOrder A] (ops : List A) (v : A) :
    ((insertList ops).contains v).1 = true ↔ v ∈ ops := by
  have hinv := insertList_inv ops SplayTree.new (by simp [SplayTree.new, inorder])
  have hsort : List.Pairwise (· < ·) (inorder (insertList ops).root) := hinv.1
  have hc := contains_spec (insertList ops) v hsort
  rw [hc.1]
  have h2 : v ∈ inorder (insertList ops).root ↔
      v ∈ inorder (SplayTree.new : SplayTree A).root ∨ v ∈ ops := hinv.2 v
  rw [h2]
  simp [SplayTree.new, inorder]

/-- C8: immediately after `insert(v)` the root of the underlying tree is a
`Branch` carrying `v`, whether `v` was newly inserted or already present; and
when `v` was already present the contents are unchanged (the existing key is
only splayed to the root). Stated for trees with sorted in-order contents,
which is the invariant of every set built through the `insert` API. -/
theorem insert_splays_to_root {A : Type} [LinearOrder A] (t : SplayTree A) (v : A)
    (hs : List.Pairwise (· < ·) (inorder t.root)) :
    (∃ l r, (t.insert v).root = TreeNode.Branch v l r) ∧
    (v ∈ inorder t.root → inorder (t.insert v).root = inorder t.root) := by
  obtain ⟨hpres, _⟩ := insert_inorder t v hs
  refine ⟨?_, hpres⟩
  rcases hfoc : (find_go v [] t.root).here with _ | ⟨w, l, r⟩
  · have hroot : (t.insert v).root =
        pzip (psplay ⟨(find_go v [] t.root).path, TreeNode.Branch v .Empty .Empty⟩) := by
      simp only [SplayTree.insert, find]
      rw [hfoc]
    obtain ⟨T, FL, FR, q1, q2, _, _⟩ := psplay_root
      ⟨(find_go v [] t.root).path, TreeNode.Branch v .Empty .Empty⟩ v .Empty .Empty rfl
    refine ⟨FL, FR, ?_⟩
    rw [hroot, q1]
    exact psep_branch_eq T v FL FR q2
  · have hw : w = v := find_go_here_val v t.root [] w l r hfoc
    have hroot : (t.insert v).root =
        pzip (psplay ⟨(find_go v [] t.root).path, TreeNode.Branch w l r⟩) := by
      simp only [SplayTree.insert, find]
      rw [hfoc]
    obtain ⟨T, FL, FR, q1, q2, _, _⟩ := psplay_root
      ⟨(find_go v [] t.root).path, TreeNode.Branch w l r⟩ w l r rfl
    subst hw
    refine ⟨FL, FR, ?_⟩
    rw [hroot, q1]
    exact psep_branch_eq T w FL FR q2

theorem insert_splays_to_root_witness :
    (∃ l r, ((SplayTree.new : SplayTree Int).insert 5).root = TreeNode.Branch 5 l r) ∧
    ((5 : Int) ∈ inorder (SplayTree.new : SplayTree Int).root →
      inorder ((SplayTree.new : SplayTree Int).insert 5).root =
        inorder (SplayTree.new : SplayTree Int).root) :=
  insert_splays_to_root (SplayTree.new : SplayTree Int) 5
    (by simp [SplayTree.new, inorder])

end RustSplay
